import Mathlib

/-!
# Verification of the Journey-to-DayOne markup conversion engine

This file gives a shallow embedding of the conversion engine of
`j2d_regex_conversions.py` (class `Importer`): the pipeline
`convert_journey_html_to_dayone_markdown` and its stages
`convert_simple`, `convert_lists`, `perform_phrase_replacements`,
`fix_name_spellings` and `convert_quote_blocks`.

The Python code is regex-driven (module `re`).  We embed the fragment of
Python's regex language actually used by the source: literal characters,
the classes `\s`, `\w`, `\d`, `.` (with and without `re.DOTALL`),
concatenation, alternation `|`, greedy and lazy repetition `*`, `*?`,
`+`, `{0,1}`, capture groups, and the lookahead `(?=...)`.  The matcher
`matchR` below is a backtracking matcher in continuation-passing style
whose exploration order matches Python's leftmost / greedy-first /
lazy-first semantics.  `search` scans start positions left to right like
`re.search`; `reSubF` is `re.sub` with a replacement function;
`findIter` is `re.finditer`.

Python's `re.sub` parses its replacement argument as a *template*
(`\n` escapes, `\1`..`\99` and `\g<name>` group references; unknown
ASCII-letter escapes and out-of-range group references raise
`re.error`).  The source feeds strings derived from the *input text*
into `re.sub` as replacement templates inside its list and quote loops,
so template expansion is modelled faithfully by `expandT`, which can
fail; those loops therefore live in `Except String`.  The loops are
given explicit fuel because (as proved below) they do not always
terminate; Python simply never returns in those cases, which the model
signals with the distinguished result `.error "fuel exhausted"`.

Strings are modelled as `List Char` (Python `str` indexing/slicing maps
to list operations); all inputs of interest are ASCII, and the
character classes use Python's ASCII behavior.
-/

/-- Character classes of the regex fragment used by the source:
`\s`, `\w`, `\d`, `.` without `re.DOTALL`, and `.` with `re.DOTALL`. -/
inductive CharClass where
  | space : CharClass
  | word : CharClass
  | digit : CharClass
  | dotNoNL : CharClass
  | dotAll : CharClass
deriving DecidableEq, Repr

deriving instance DecidableEq for Except

/-- Membership in a character class, following Python's ASCII semantics:
`\s` is a space, tab, newline, carriage return, form feed or vertical tab;
`\w` is a letter, digit or underscore; `.` matches anything except (for
the non-DOTALL variant) a newline. -/
def CharClass.mem : CharClass → Char → Bool
  | .space, c => c = ' ' || c = '\t' || c = '\n' || c = '\r' || c = '\x0c' || c = '\x0b'
  | .word, c => c.isAlpha || c.isDigit || c = '_'
  | .digit, c => c.isDigit
  | .dotNoNL, c => c ≠ '\n'
  | .dotAll, _ => true

/-- Abstract syntax of the regex fragment used by the source.  `star`'s
boolean is `true` for lazy (`*?`) and `false` for greedy (`*`)
repetition.  `grp i r` is capture group number `i` (Python numbers
groups by order of the opening parenthesis, named groups included).
`look r` is the lookahead `(?=r)`. -/
inductive RE where
  | eps : RE
  | ch : Char → RE
  | cls : CharClass → RE
  | cat : RE → RE → RE
  | alt : RE → RE → RE
  | star : Bool → RE → RE
  | grp : Nat → RE → RE
  | look : RE → RE
deriving Repr

/-- Captured groups: group number to last captured text, most recent
binding first (as Python, a later capture of the same group shadows an
earlier one). -/
abbrev Caps : Type := List (Nat × List Char)

/-- Record a capture. -/
def setCap (i : Nat) (v : List Char) (caps : Caps) : Caps := (i, v) :: caps

/-- The text of group `i`, or `[]` if the group did not participate in
the match (Python's `re.sub` substitutes the empty string for unmatched
groups since 3.5). -/
def capOr (caps : Caps) (i : Nat) : List Char :=
  match List.find? (fun p => p.1 = i) caps with
  | some p => p.2
  | none => []

/-- One layer of star iteration: `body` is the matcher of the star's
inner pattern.  The fuel only bounds the number of iterations for
structural recursion; each iteration must consume at least one
character (the length guard), so `s.length + 1` units always suffice
and the exhausted case is unreachable (`starIter_fuel` below). -/
def starIter (body : List Char → Caps → (List Char → Caps → Option (List Char × Caps)) →
      Option (List Char × Caps)) (lz : Bool) :
    Nat → List Char → Caps → (List Char → Caps → Option (List Char × Caps)) →
      Option (List Char × Caps)
  | 0, _, _, _ => none
  | n + 1, s, caps, k =>
    if lz then
      match k s caps with
      | some r => some r
      | none => body s caps (fun s' caps' =>
          if s'.length < s.length then starIter body lz n s' caps' k else none)
    else
      match body s caps (fun s' caps' =>
          if s'.length < s.length then starIter body lz n s' caps' k else none) with
      | some r => some r
      | none => k s caps

/-- Equality of search results is decidable (assembled explicitly:
instance search does not chain through the four-component product on
its own here). -/

instance : DecidableEq (List Char × List Char × Caps × List Char) :=
  have i1 : DecidableEq (Caps × List Char) := inferInstance
  have i2 : DecidableEq (List Char × Caps × List Char) := @instDecidableEqProd _ _ _ i1
  @instDecidableEqProd _ _ _ i2

/-- First-alternative-first, greedy-first / lazy-empty-first
backtracking matcher in continuation-passing style, mirroring Python's
`re` exploration order.  `matchR re s caps k` tries to match `re` at the
start of `s` and calls the continuation `k` with the remaining suffix
and updated captures; `none` means this branch fails and the caller
backtracks. -/
def matchR : RE → List Char → Caps →
    (List Char → Caps → Option (List Char × Caps)) → Option (List Char × Caps)
  | .eps => fun s caps k => k s caps
  | .ch c => fun s caps k =>
    match s with
    | [] => none
    | d :: rest => if d = c then k rest caps else none
  | .cls p => fun s caps k =>
    match s with
    | [] => none
    | d :: rest => if p.mem d then k rest caps else none
  | .cat a b => fun s caps k =>
    matchR a s caps (fun s' caps' => matchR b s' caps' k)
  | .alt a b => fun s caps k =>
    match matchR a s caps k with
    | some r => some r
    | none => matchR b s caps k
  | .star lz a => fun s caps k => starIter (matchR a) lz (s.length + 1) s caps k
  | .grp i a => fun s caps k =>
    matchR a s caps (fun s' caps' =>
      k s' (setCap i (s.take (s.length - s'.length)) caps'))
  | .look a => fun s caps k =>
    match matchR a s caps (fun s' caps' => some (s', caps')) with
    | some (_, caps') => k s caps'
    | none => none

@[simp] theorem matchR_grp (i : Nat) (a : RE) (s : List Char) (caps : Caps) (k) :
    matchR (.grp i a) s caps k =
      matchR a s caps (fun s' caps' =>
        k s' (setCap i (s.take (s.length - s'.length)) caps')) := by
  rw [matchR]

@[simp] theorem matchR_look (a : RE) (s : List Char) (caps : Caps) (k) :
    matchR (.look a) s caps k =
      (match matchR a s caps (fun s' caps' => some (s', caps')) with
       | some (_, caps') => k s caps'
       | none => none) := by
  rw [matchR]

/-! ### Soundness of the matcher: continuations only run on suffixes -/

/-- A lower bound on the number of characters any match of `re` must
consume. -/
def minLen : RE → Nat
  | .eps => 0
  | .ch _ => 1
  | .cls _ => 1
  | .cat a b => minLen a + minLen b
  | .alt a b => min (minLen a) (minLen b)
  | .star _ _ => 0
  | .grp _ a => minLen a
  | .look _ => 0

/-! ### Searching and substitution (`re.search`, `re.sub`, `re.finditer`) -/

/-- Scan start positions left to right (as `re.search` does) and return
the first position where the pattern matches, as
`(before, matched, captures, after)` with
`before ++ matched ++ after` the input and `matched` the text of the
match.  `pre` accumulates the scanned-over prefix in reverse. -/
def searchAux (re : RE) (pre : List Char) (s : List Char) :
    Option (List Char × List Char × Caps × List Char) :=
  match matchR re s [] (fun rest caps => some (rest, caps)) with
  | some (rest, caps) =>
    some (pre.reverse, s.take (s.length - rest.length), caps, rest)
  | none =>
    match s with
    | [] => none
    | c :: tail => searchAux re (c :: pre) tail

/-- `re.search`: leftmost match of `re` in `s`. -/
def search (re : RE) (s : List Char) : Option (List Char × List Char × Caps × List Char) :=
  searchAux re [] s

/-- Fueled form of `re.sub` with a replacement function: replace every
non-overlapping match, scanning left to right, continuing after each
replaced match (the replacement text is not rescanned).  The fuel only
serves structural recursion; since every match of the source's patterns
is nonempty, `s.length + 1` units always suffice. -/
def reSubFuel (re : RE) (f : Caps → List Char) : Nat → List Char → List Char
  | 0, s => s
  | n + 1, s =>
    match search re s with
    | none => s
    | some (b, _, caps, a) =>
      if a.length < s.length then b ++ f caps ++ reSubFuel re f n a
      else b ++ f caps ++ a

/-- `re.sub` with a replacement function `f` of the captures. -/
def reSubF (re : RE) (f : Caps → List Char) (s : List Char) : List Char :=
  reSubFuel re f (s.length + 1) s

/-- Fueled form of `re.finditer`. -/
def findIterFuel (re : RE) : Nat → List Char → List (List Char × Caps)
  | 0, _ => []
  | n + 1, s =>
    match search re s with
    | none => []
    | some (_, m, caps, a) =>
      if a.length < s.length then (m, caps) :: findIterFuel re n a
      else [(m, caps)]

/-- `re.finditer`: the list of (matched text, captures) of all
non-overlapping matches, scanning left to right. -/
def findIter (re : RE) (s : List Char) : List (List Char × Caps) :=
  findIterFuel re (s.length + 1) s

/-! ### Lemmas for symbolic matching -/

/-- The first character that any match of the pattern must have, when
this is determined by the pattern's shape. -/
def headChar : RE → Option Char
  | .ch c => some c
  | .cat a _ => headChar a
  | .grp _ a => headChar a
  | _ => none

/-! ### Replacement templates (`sre_parse.parse_template` semantics)

`re.sub` with a string replacement parses it as a template.  The source
builds such templates from input-derived text inside its loops, so the
escape rules of CPython's template parser are modelled here:
`\a \b \f \n \r \t \v \\` are character escapes; `\0` (plus up to two
octal digits) is an octal escape; `\1..\99` are group references, except
that two octal digits followed by a third octal digit form a three-digit
octal escape (error above 0o377); `\g<name>` is a named or numbered
group reference; any other escaped ASCII letter is an error
("bad escape"); an escaped non-letter stands for itself with the
backslash kept; a trailing lone backslash is an error.  Group references
above the pattern's group count error with "invalid group reference"
(CPython raises this either at parse time or, for the count plus one,
when expanding a match; both are modelled as the same error since the
source only substitutes when a match exists).  Unmatched groups expand
to the empty string. -/

/-- Split a template at the first `>`, for `\g<name>` references. -/
def splitAtGt : List Char → Option (List Char × List Char)
  | [] => none
  | c :: rest =>
    if c = '>' then some ([], rest)
    else
      match splitAtGt rest with
      | some (name, rem) => some (c :: name, rem)
      | none => none

def isOctDigit (c : Char) : Bool := '0' ≤ c && c ≤ '7'

def digVal (c : Char) : Nat := c.toNat - '0'.toNat

def digitsVal (l : List Char) : Nat := l.foldl (fun n c => n * 10 + digVal c) 0

/-- The expansion of group `i`: group 0 is the whole match `m0`. -/
def groupVal (m0 : List Char) (caps : Caps) (i : Nat) : List Char :=
  if i = 0 then m0 else capOr caps i

/-- Process the template text following one backslash: return the
expanded chunk and the remaining template, or the error Python's
template parser raises. -/
def escStep (ng : Nat) (names : List (String × Nat)) (m0 : List Char) (caps : Caps) :
    List Char → Except String (List Char × List Char)
  | [] => .error "bad escape (end of pattern)"
  | 'g' :: rest =>
    match rest with
    | '<' :: rest2 =>
      match splitAtGt rest2 with
      | none => .error "missing >, unterminated name"
      | some ([], _) => .error "missing group name"
      | some (name, rem) =>
        if name.all Char.isDigit then
          if digitsVal name ≤ ng then .ok (groupVal m0 caps (digitsVal name), rem)
          else .error "invalid group reference"
        else
          match names.find? (fun p => p.1.data = name) with
          | some p => .ok (groupVal m0 caps p.2, rem)
          | none => .error "unknown group name"
    | _ => .error "missing <"
  | '0' :: rest =>
    match rest with
    | d1 :: rest1 =>
      if isOctDigit d1 then
        match rest1 with
        | d2 :: rest2 =>
          if isOctDigit d2 then
            .ok ([Char.ofNat (digVal d1 * 8 + digVal d2)], rest2)
          else .ok ([Char.ofNat (digVal d1)], rest1)
        | [] => .ok ([Char.ofNat (digVal d1)], rest1)
      else .ok ([Char.ofNat 0], rest)
    | [] => .ok ([Char.ofNat 0], rest)
  | c :: rest =>
    if c.isDigit then
      -- c is 1..9 here (0 was handled above): a group reference, except
      -- for the three-octal-digit escape form
      match rest with
      | d2 :: rest2 =>
        if d2.isDigit then
          match rest2 with
          | d3 :: rest3 =>
            if isOctDigit c && isOctDigit d2 && isOctDigit d3 then
              if digVal c * 64 + digVal d2 * 8 + digVal d3 > 255 then
                .error "octal escape value outside of range 0-0o377"
              else .ok ([Char.ofNat (digVal c * 64 + digVal d2 * 8 + digVal d3)], rest3)
            else
              if digVal c * 10 + digVal d2 ≤ ng then
                .ok (groupVal m0 caps (digVal c * 10 + digVal d2), rest2)
              else .error "invalid group reference"
          | [] =>
            if digVal c * 10 + digVal d2 ≤ ng then
              .ok (groupVal m0 caps (digVal c * 10 + digVal d2), rest2)
            else .error "invalid group reference"
        else
          if digVal c ≤ ng then .ok (groupVal m0 caps (digVal c), rest)
          else .error "invalid group reference"
      | [] =>
        if digVal c ≤ ng then .ok (groupVal m0 caps (digVal c), rest)
        else .error "invalid group reference"
    else if c = 'a' then .ok (['\x07'], rest)
    else if c = 'b' then .ok (['\x08'], rest)
    else if c = 'f' then .ok (['\x0c'], rest)
    else if c = 'n' then .ok (['\n'], rest)
    else if c = 'r' then .ok (['\x0d'], rest)
    else if c = 't' then .ok (['\t'], rest)
    else if c = 'v' then .ok (['\x0b'], rest)
    else if c = '\\' then .ok (['\\'], rest)
    else if c.isAlpha then .error ("bad escape \\" ++ String.mk [c])
    else .ok (['\\', c], rest)

/-- Fueled expansion of a replacement template; the fuel only serves
structural recursion and `l.length + 1` units always suffice. -/
def expandFuel (ng : Nat) (names : List (String × Nat)) (m0 : List Char) (caps : Caps) :
    Nat → List Char → Except String (List Char)
  | 0, _ => .error "fuel exhausted"
  | n + 1, l =>
    match l with
    | [] => .ok []
    | c :: rest =>
      if c = '\\' then
        match escStep ng names m0 caps rest with
        | .error e => .error e
        | .ok (chunk, rest') =>
          if rest'.length < rest.length + 1 then
            match expandFuel ng names m0 caps n rest' with
            | .error e => .error e
            | .ok out => .ok (chunk ++ out)
          else .error "bad template"
      else
        match expandFuel ng names m0 caps n rest with
        | .error e => .error e
        | .ok out => .ok (c :: out)

/-- Expand a replacement template against a match (`m0` the whole
matched text, `caps` its captures, `ng` the pattern's group count,
`names` its named groups), or fail as Python's template parser does. -/
def expandT (ng : Nat) (names : List (String × Nat)) (m0 : List Char) (caps : Caps)
    (l : List Char) : Except String (List Char) :=
  expandFuel ng names m0 caps (l.length + 1) l

/-! ### Pattern constructors -/

/-- A literal string pattern. -/
def lit : List Char → RE
  | [] => .eps
  | c :: cs => .cat (.ch c) (lit cs)

def litS (s : String) : RE := lit s.data

/-- Sequence of patterns. -/
def rcat (l : List RE) : RE := l.foldr .cat .eps

/-- `.*?` : lazy dot-star; `all` selects the `re.DOTALL` dot. -/
def dotq (all : Bool) : RE := .star true (.cls (if all then .dotAll else .dotNoNL))

/-- `r{0,1}` (greedy option). -/
def optG (r : RE) : RE := .alt r .eps

/-- `r+` (greedy). -/
def plusG (r : RE) : RE := .cat r (.star false r)

/-- `\s*` (greedy). -/
def spaceStar : RE := .star false (.cls .space)

/-! ### The source's patterns

Transliterations of the regex literals in `j2d_regex_conversions.py`.
`convert_simple` compiles its patterns without flags, so `.` there is
the non-newline dot; the block patterns of `convert_lists` and
`convert_quote_blocks` are compiled with `re.DOTALL` (all dots in those
patterns match newlines), except `li_search_pattern`, whose `finditer`
call passes no flags.  In the pattern strings, `\\*` is a run of
backslashes, `/+` a run of slashes, `\"` a double quote. -/

/-- `<\*/+X>` : the closing-tag shape used throughout the source. -/
def closeTag (name : String) : RE :=
  rcat [.ch '<', .star false (.ch '\\'), plusG (.ch '/'), litS (name ++ ">")]

/-- r'<(em|i)>(?P<content>.*?)(?P<nbsp>&nbsp;)*<\\*/+(em|i)>' -/
def em_pat : RE :=
  rcat [.ch '<', .grp 1 (.alt (litS "em") (litS "i")), .ch '>',
    .grp 2 (dotq false), .star false (.grp 3 (litS "&nbsp;")),
    .ch '<', .star false (.ch '\\'), plusG (.ch '/'),
    .grp 4 (.alt (litS "em") (litS "i")), .ch '>']

/-- r'<(strong|b)>(?P<content>.*?)(?P<nbsp>&nbsp;)*<\\*/+(strong|b)>' -/
def strong_pat : RE :=
  rcat [.ch '<', .grp 1 (.alt (litS "strong") (litS "b")), .ch '>',
    .grp 2 (dotq false), .star false (.grp 3 (litS "&nbsp;")),
    .ch '<', .star false (.ch '\\'), plusG (.ch '/'),
    .grp 4 (.alt (litS "strong") (litS "b")), .ch '>']

/-- r'<(del)>(?P<content>.*?)(?P<nbsp>&nbsp;)*<\\*/+(del)>' -/
def del_pat : RE :=
  rcat [.ch '<', .grp 1 (litS "del"), .ch '>',
    .grp 2 (dotq false), .star false (.grp 3 (litS "&nbsp;")),
    .ch '<', .star false (.ch '\\'), plusG (.ch '/'),
    .grp 4 (litS "del"), .ch '>']

/-- r'(<span.*?style.*?underline.*?>)(?P<text>.*?\w.*?)(<\\{0,1}/{1}span>)' -/
def span_pat : RE :=
  rcat [.grp 1 (rcat [litS "<span", dotq false, litS "style", dotq false,
      litS "underline", dotq false, .ch '>']),
    .grp 2 (rcat [dotq false, .cls .word, dotq false]),
    .grp 3 (rcat [.ch '<', optG (.ch '\\'), .ch '/', litS "span>"])]

/-- r'<p\s.*?>' -/
def p_attr_pat : RE := rcat [litS "<p", .cls .space, dotq false, .ch '>']

/-- `(\{0,1}/{1}){0,1}` : the optional slash-with-optional-backslash
group of the removal patterns. -/
def optSlash (i : Nat) : RE := optG (.grp i (rcat [optG (.ch '\\'), .ch '/']))

/-- r'<(\\{0,1}/{1}){0,1}p>' -/
def p_pat : RE := rcat [.ch '<', optSlash 1, litS "p>"]

/-- r'<(\\{0,1}/{1}){0,1}h\d+>' -/
def h_close_pat : RE := rcat [.ch '<', optSlash 1, .ch 'h', plusG (.cls .digit), .ch '>']

/-- r'<(\\{0,1}/{1}){0,1}del>' -/
def del_close_pat : RE := rcat [.ch '<', optSlash 1, litS "del>"]

/-- r'<(\\{0,1}/{1}){0,1}span\s{0,1}.*?>' -/
def span_close_pat : RE :=
  rcat [.ch '<', optSlash 1, litS "span", optG (.cls .space), dotq false, .ch '>']

/-- The `to_replace_simple`/`replace_with_simple` rule list of
`convert_simple`, in source order, with each fixed replacement template
in parsed form (`\g<content>` is group 2, `\g<nbsp>` group 3,
`\g<text>` group 2; `\n` is a newline; an unmatched `nbsp` group
expands to the empty string). -/
def to_replace_simple : List (RE × (Caps → List Char)) :=
  [(em_pat, fun caps => '*' :: capOr caps 2 ++ '*' :: capOr caps 3),
   (strong_pat, fun caps => '*' :: '*' :: capOr caps 2 ++ '*' :: '*' :: capOr caps 3),
   (del_pat, fun caps => '~' :: '~' :: capOr caps 2 ++ '~' :: '~' :: capOr caps 3),
   (span_pat, fun caps => '*' :: capOr caps 2 ++ ['*']),
   (litS "<h1>", fun _ => "\n# ".data),
   (litS "<h2>", fun _ => "\n## ".data),
   (litS "<h3>", fun _ => "\n##### ".data),
   (litS "&nbsp;", fun _ => " ".data)]

/-- The `to_remove_simple` rule list of `convert_simple`, in source
order (each is replaced by the empty string). -/
def to_remove_simple : List RE :=
  [p_attr_pat, p_pat, h_close_pat, del_close_pat, span_close_pat]

namespace Importer

/-- `Importer.convert_simple`: the two substitution loops over
`to_replace_simple` and `to_remove_simple`. -/
def convert_simple (text : List Char) : List Char :=
  to_remove_simple.foldl (fun t re => reSubF re (fun _ => []) t)
    (to_replace_simple.foldl (fun t pr => reSubF pr.1 pr.2 t) text)

end Importer

/-- r'(<ol>)(\s*)(.*?)(<\\*/+ol>)', compiled with `re.DOTALL`. -/
def ol_parent : RE :=
  rcat [.grp 1 (litS "<ol>"), .grp 2 spaceStar, .grp 3 (dotq true), .grp 4 (closeTag "ol")]

/-- r'(?P<opening_tag><ul.*?>)(?P<newline>\s*)(?P<contents>.*?)(<\\*/+ul>)',
compiled with `re.DOTALL`; `opening_tag` is group 1, `newline` group 2,
`contents` group 3. -/
def ul_parent : RE :=
  rcat [.grp 1 (rcat [litS "<ul", dotq true, .ch '>']), .grp 2 spaceStar,
    .grp 3 (dotq true), .grp 4 (closeTag "ul")]

/-- r'(<ul\s*class=\"task\">)' -/
def tl_start : RE :=
  .grp 1 (rcat [litS "<ul", spaceStar, litS "class=\"task\">"])

/-- r'(<li>)(?P<contents>.*?)(<\\*/+li>)(?P<newline>\s*)', compiled
without flags (`finditer` passes none), so its dot is the non-newline
dot; `contents` is group 2, `newline` group 4. -/
def li_pat : RE :=
  rcat [.grp 1 (litS "<li>"), .grp 2 (dotq false), .grp 3 (closeTag "li"),
    .grp 4 spaceStar]

/-- r'<li data-checked=\"true\">' -/
def li_checked : RE := litS "<li data-checked=\"true\">"

/-- r'<\\*/+li>' -/
def li_close : RE := closeTag "li"

/-- r'(<blockquote>)(?P<contents>.*?)(<\\*/+blockquote>)', compiled with
`re.DOTALL`; `contents` is group 2. -/
def quote_parent : RE :=
  rcat [.grp 1 (litS "<blockquote>"), .grp 2 (dotq true), .grp 3 (closeTag "blockquote")]

/-- r'(\n)(?P<contents>.*?(?=\n))', compiled with `re.DOTALL`;
`contents` is group 2. -/
def quote_contents : RE :=
  rcat [.grp 1 (.ch '\n'), .grp 2 (.cat (dotq true) (.look (.ch '\n')))]

/-- r'(C|c)(offee)(S|s)(hop)' -/
def coffee_shop_search : RE :=
  rcat [.grp 1 (.alt (.ch 'C') (.ch 'c')), .grp 2 (litS "offee"),
    .grp 3 (.alt (.ch 'S') (.ch 's')), .grp 4 (litS "hop")]

/-- r'<hr( dir.*?){0,1}>' -/
def hr_pat : RE :=
  rcat [litS "<hr", optG (.grp 1 (.cat (litS " dir") (dotq false))), .ch '>']

/-- Named groups of `ul_parent` (Python group-name to group-number map). -/
def ul_names : List (String × Nat) := [("opening_tag", 1), ("newline", 2), ("contents", 3)]

/-- Named groups of `quote_parent`. -/
def quote_names : List (String × Nat) := [("contents", 2)]

/-- `re.sub(pattern, template, text, count=1)` with a *string* template:
the template is parsed (possibly failing) and the first match is
replaced by its expansion.  Python parses the template before scanning,
so a bad template raises even without a match. -/
def reSub1T (re : RE) (ng : Nat) (names : List (String × Nat)) (tpl : List Char)
    (s : List Char) : Except String (List Char) :=
  match search re s with
  | none =>
    match expandT ng names [] [] tpl with
    | .error e => .error e
    | .ok _ => .ok s
  | some (b, m0, caps, a) =>
    match expandT ng names m0 caps tpl with
    | .error e => .error e
    | .ok r => .ok (b ++ r ++ a)

namespace Importer

/-- The ordered-list while-loop of `Importer.convert_lists`: find the
first `<ol>...</ol>` block, rebuild its items with 1-based ordinals
(`li_str`), and substitute one occurrence with template
`r'\2' + li_str`; repeat.  `fuel` bounds the iteration count (Python has
no such bound and simply loops; exhaustion is the distinguished
`"fuel exhausted"` error). -/
def ol_loop : Nat → List Char → Except String (List Char)
  | 0, _ => .error "fuel exhausted"
  | fuel + 1, text =>
    match search ol_parent text with
    | none => .ok text
    | some (_, matched, _, _) =>
      let items := findIter li_pat matched
      let li_str := items.enum.foldl (fun acc ic =>
        acc ++ ('\\' :: 'n' :: (Nat.repr (ic.1 + 1)).data) ++ ('.' :: ' ' :: [])
          ++ capOr ic.2.2 2 ++ capOr ic.2.2 4) []
      match reSub1T ol_parent 4 [] ('\\' :: '2' :: li_str) text with
      | .error e => .error e
      | .ok t => ol_loop fuel t

/-- The unordered/task-list while-loop of `Importer.convert_lists`.
`ul_substring` is `text[ul_match.start('newline'):ul_match.end('contents')]`,
which is the concatenation of the adjacent groups `newline` and
`contents`. -/
def ul_loop : Nat → List Char → Except String (List Char)
  | 0, _ => .error "fuel exhausted"
  | fuel + 1, text =>
    match search ul_parent text with
    | none => .ok text
    | some (_, _, caps, _) =>
      let ulSub := capOr caps 2 ++ capOr caps 3
      let ulSub :=
        if (search tl_start (capOr caps 1)).isSome then
          reSubF (litS "<li>") (fun _ => "\n- [ ] ".data)
            (reSubF li_checked (fun _ => "\n- [X] ".data) ulSub)
        else
          reSubF (litS "<li>") (fun _ => "\n- ".data) ulSub
      let ulSub := reSubF li_close (fun _ => []) ulSub
      match reSub1T ul_parent 4 ul_names ('\\' :: '2' :: ulSub) text with
      | .error e => .error e
      | .ok t => ul_loop fuel t

/-- `Importer.convert_lists`: the ordered-list loop, then the
unordered/task-list loop. -/
def convert_lists (fuel : Nat) (text : List Char) : Except String (List Char) :=
  match ol_loop fuel text with
  | .error e => .error e
  | .ok t => ul_loop fuel t

/-- The blockquote while-loop of `Importer.convert_quote_blocks`:
`quote_substring` is the `contents` group rewritten by the inner
substitution (whose fixed template `r'\n' + '> ' + r'\g<contents>'`
parses to a newline, `"> "`, and group 2), and is then itself used as
the replacement template for one occurrence of the whole block. -/
def quote_loop : Nat → List Char → Except String (List Char)
  | 0, _ => .error "fuel exhausted"
  | fuel + 1, text =>
    match search quote_parent text with
    | none => .ok text
    | some (_, _, caps, _) =>
      let qs := capOr caps 2
      let qs := reSubF quote_contents (fun c => '\n' :: '>' :: ' ' :: capOr c 2) qs
      match reSub1T quote_parent 3 quote_names qs text with
      | .error e => .error e
      | .ok t => quote_loop fuel t

/-- `Importer.convert_quote_blocks`. -/
def convert_quote_blocks (fuel : Nat) (text : List Char) : Except String (List Char) :=
  quote_loop fuel text

/-- `Importer.perform_phrase_replacements`: the coffee-shop rule, with
its fixed template `r'\1\2 \3\4'` in parsed form. -/
def perform_phrase_replacements (text : List Char) : List Char :=
  reSubF coffee_shop_search
    (fun caps => capOr caps 1 ++ capOr caps 2 ++ ' ' :: (capOr caps 3 ++ capOr caps 4)) text

end Importer

/-- Python `str.lower` (ASCII). -/
def strLower (s : String) : String := String.mk (s.data.map Char.toLower)

/-- Python `str.upper` (ASCII). -/
def strUpper (s : String) : String := String.mk (s.data.map Char.toUpper)

/-- The `names_to_fix` table of `Importer.fix_name_spellings`, in
insertion order (Python dicts iterate in insertion order): correct
spelling to list of known misspellings, `[None]` when there are none. -/
def names_to_fix : List (String × List (Option String)) :=
  [("Name One", [some "Nome One"]),
   ("Name Two", [some "Nome Two", some "Neme Two"]),
   ("Name Three", [none])]

namespace Importer

/-- `Importer.fix_name_spellings`: for each table entry, lowercase
canonical to canonical; then for each non-`None` misspelling, its
uppercase to the canonical's uppercase, and `mispelling|mispelling.lower()`
to the canonical.  All replacement templates are the literal name
strings (no escapes). -/
def fix_name_spellings (text : List Char) : List Char :=
  names_to_fix.foldl (fun t entry =>
    let t := reSubF (litS (strLower entry.1)) (fun _ => entry.1.data) t
    entry.2.foldl (fun t mis =>
      match mis with
      | none => t
      | some m =>
        let t := reSubF (litS (strUpper m)) (fun _ => (strUpper entry.1).data) t
        reSubF (.alt (litS m) (litS (strLower m))) (fun _ => entry.1.data) t) t) text

/-- `Importer.convert_journey_html_to_dayone_markdown`: the five stages
in order, then the horizontal-rule substitution (fixed template
`r'\n---'`, parsed form a newline and three dashes). -/
def convert_journey_html_to_dayone_markdown (fuel : Nat) (text : List Char) :
    Except String (List Char) :=
  match convert_lists fuel (convert_simple text) with
  | .error e => .error e
  | .ok t =>
    match convert_quote_blocks fuel (fix_name_spellings (perform_phrase_replacements t)) with
    | .error e => .error e
    | .ok t => .ok (reSubF hr_pat (fun _ => "\n---".data) t)

end Importer

/-! ### Specification-side string functions

`replaceLit p r` replaces every occurrence of the literal `p` by `r`,
scanning left to right without overlap and without rescanning `r`;
`replaceLit2 p q r` does the same for the two-literal alternation
`p|q` (at each position `p` is preferred, as Python's alternation
does).  These give regex-free characterizations of the source's
literal-pattern substitutions.  The fuel only serves structural
recursion; `s.length + 1` units always suffice. -/

def replaceLitFuel (p r : List Char) : Nat → List Char → List Char
  | 0, s => s
  | _ + 1, [] => []
  | n + 1, c :: t =>
    if p.isPrefixOf (c :: t) then r ++ replaceLitFuel p r n (List.drop (p.length - 1) t)
    else c :: replaceLitFuel p r n t

def replaceLit (p r s : List Char) : List Char := replaceLitFuel p r (s.length + 1) s

def replaceLit2Fuel (p q r : List Char) : Nat → List Char → List Char
  | 0, s => s
  | _ + 1, [] => []
  | n + 1, c :: t =>
    if p.isPrefixOf (c :: t) then r ++ replaceLit2Fuel p q r n (List.drop (p.length - 1) t)
    else if q.isPrefixOf (c :: t) then r ++ replaceLit2Fuel p q r n (List.drop (q.length - 1) t)
    else c :: replaceLit2Fuel p q r n t

def replaceLit2 (p q r s : List Char) : List Char := replaceLit2Fuel p q r (s.length + 1) s

/-- All patterns recognized by `convert_simple`, in application order. -/
def simple_patterns : List RE := to_replace_simple.map Prod.fst ++ to_remove_simple

/-- No rule of `convert_simple` finds a match in `s`. -/
def noRecognizedTags (s : List Char) : Prop :=
  ∀ re ∈ simple_patterns, search re s = none

instance (s : List Char) : Decidable (noRecognizedTags s) :=
  decidable_of_iff (simple_patterns.all (fun re => (search re s).isNone) = true)
    (by simp only [noRecognizedTags, List.all_eq_true, Option.isNone_iff_eq_none])

/-- The per-item replacement template built by the ordered-list loop:
`r'\n' + str(k) + '. ' + contents + newline` for the item of 0-based
index `ic.1`. -/
def olChunkT (ic : Nat × (List Char × Caps)) : List Char :=
  ('\\' :: 'n' :: (Nat.repr (ic.1 + 1)).data) ++ ('.' :: ' ' :: []) ++
    capOr ic.2.2 2 ++ capOr ic.2.2 4

/-- Its expansion: a newline, the 1-based ordinal, `". "`, the item's
contents and its trailing whitespace. -/
def olChunkOut (ic : Nat × (List Char × Caps)) : List Char :=
  '\n' :: ((Nat.repr (ic.1 + 1)).data ++ ('.' :: ' ' :: []) ++
    capOr ic.2.2 2 ++ capOr ic.2.2 4)
/-- The star fuel is irrelevant as long as it exceeds the input length:
each iteration consumes at least one character. -/
theorem starIter_fuel (body) (lz : Bool) :
    ∀ (n m : Nat) (s : List Char) (caps : Caps) (k),
      s.length < n → s.length < m →
      starIter body lz n s caps k = starIter body lz m s caps k := by
  intro n
  induction n with
  | zero => intro m s caps k hn; omega
  | succ n ih =>
    intro m s caps k hn hm
    cases m with
    | zero => omega
    | succ m =>
      have harg : (fun s' caps' =>
          if s'.length < s.length then starIter body lz n s' caps' k else none) =
          (fun s' caps' =>
          if s'.length < s.length then starIter body lz m s' caps' k else none) := by
        funext s' caps'
        split
        · rename_i hlt
          exact ih m s' caps' k (by omega) (by omega)
        · rfl
      cases lz with
      | true => rw [starIter, starIter, harg]
      | false => rw [starIter, starIter, harg]

/-! ### Unfolding lemmas for the matcher -/

@[simp] theorem matchR_eps (s : List Char) (caps : Caps) (k) :
    matchR .eps s caps k = k s caps := by
  rw [matchR]

@[simp] theorem matchR_ch_nil (c : Char) (caps : Caps) (k) :
    matchR (.ch c) [] caps k = none := by
  rw [matchR]

@[simp] theorem matchR_ch_cons (c d : Char) (s : List Char) (caps : Caps) (k) :
    matchR (.ch c) (d :: s) caps k = if d = c then k s caps else none := by
  rw [matchR]

@[simp] theorem matchR_cls_nil (p : CharClass) (caps : Caps) (k) :
    matchR (.cls p) [] caps k = none := by
  rw [matchR]

@[simp] theorem matchR_cls_cons (p : CharClass) (d : Char) (s : List Char) (caps : Caps) (k) :
    matchR (.cls p) (d :: s) caps k = if p.mem d then k s caps else none := by
  rw [matchR]

@[simp] theorem matchR_cat (a b : RE) (s : List Char) (caps : Caps) (k) :
    matchR (.cat a b) s caps k =
      matchR a s caps (fun s' caps' => matchR b s' caps' k) := by
  rw [matchR]

@[simp] theorem matchR_alt (a b : RE) (s : List Char) (caps : Caps) (k) :
    matchR (.alt a b) s caps k =
      (match matchR a s caps k with
       | some r => some r
       | none => matchR b s caps k) := by
  rw [matchR]

theorem starIter_succ (body) (lz : Bool) (n : Nat) (s : List Char) (caps : Caps) (k) :
    starIter body lz (n + 1) s caps k =
      (if lz then
        match k s caps with
        | some r => some r
        | none => body s caps (fun s' caps' =>
            if s'.length < s.length then starIter body lz n s' caps' k else none)
      else
        match body s caps (fun s' caps' =>
            if s'.length < s.length then starIter body lz n s' caps' k else none) with
        | some r => some r
        | none => k s caps) := by
  rw [starIter]

theorem matchR_star_lazy (a : RE) (s : List Char) (caps : Caps) (k) :
    matchR (.star true a) s caps k =
      (match k s caps with
       | some r => some r
       | none => matchR a s caps (fun s' caps' =>
           if s'.length < s.length then matchR (.star true a) s' caps' k else none)) := by
  have harg : (fun s' caps' =>
      if s'.length < s.length then starIter (matchR a) true s.length s' caps' k else none) =
      (fun s' caps' =>
      if s'.length < s.length then matchR (.star true a) s' caps' k else none) := by
    funext s' caps'
    split
    · rename_i hlt
      rw [matchR]
      exact starIter_fuel _ _ s.length (s'.length + 1) s' caps' k (by omega) (by omega)
    · rfl
  have h0 : matchR (.star true a) s caps k = starIter (matchR a) true (s.length + 1) s caps k := rfl
  rw [h0, starIter_succ, harg]
  simp

theorem matchR_star_greedy (a : RE) (s : List Char) (caps : Caps) (k) :
    matchR (.star false a) s caps k =
      (match matchR a s caps (fun s' caps' =>
           if s'.length < s.length then matchR (.star false a) s' caps' k else none) with
       | some r => some r
       | none => k s caps) := by
  have harg : (fun s' caps' =>
      if s'.length < s.length then starIter (matchR a) false s.length s' caps' k else none) =
      (fun s' caps' =>
      if s'.length < s.length then matchR (.star false a) s' caps' k else none) := by
    funext s' caps'
    split
    · rename_i hlt
      rw [matchR]
      exact starIter_fuel _ _ s.length (s'.length + 1) s' caps' k (by omega) (by omega)
    · rfl
  have h0 : matchR (.star false a) s caps k = starIter (matchR a) false (s.length + 1) s caps k := rfl
  rw [h0, starIter_succ, harg]
  simp

theorem matchR_some_suffix_aux (n : Nat) :
    ∀ (re : RE) (s : List Char) (caps : Caps)
      (k : List Char → Caps → Option (List Char × Caps)) (r : List Char × Caps),
      s.length ≤ n → matchR re s caps k = some r →
      ∃ t caps', t <:+ s ∧ t.length + minLen re ≤ s.length ∧ k t caps' = some r := by
  induction n using Nat.strong_induction_on with
  | _ n ih =>
  intro re
  induction re with
  | eps =>
    intro s caps k r hle h
    exact ⟨s, caps, List.suffix_refl s, by simp [minLen], by simpa using h⟩
  | ch c =>
    intro s caps k r hle h
    match s with
    | [] => simp at h
    | d :: rest =>
      simp only [matchR_ch_cons] at h
      split at h
      · exact ⟨rest, caps, List.suffix_cons d rest, by simp [minLen], h⟩
      · exact absurd h (by simp)
  | cls p =>
    intro s caps k r hle h
    match s with
    | [] => simp at h
    | d :: rest =>
      simp only [matchR_cls_cons] at h
      split at h
      · exact ⟨rest, caps, List.suffix_cons d rest, by simp [minLen], h⟩
      · exact absurd h (by simp)
  | cat a b iha ihb =>
    intro s caps k r hle h
    rw [matchR_cat] at h
    obtain ⟨t, caps', hsuf, hlen, hk⟩ := iha s caps _ r hle h
    obtain ⟨t2, caps2, hsuf2, hlen2, hk2⟩ :=
      ihb t caps' k r (le_trans hsuf.length_le hle) hk
    refine ⟨t2, caps2, hsuf2.trans hsuf, ?_, hk2⟩
    simp only [minLen]
    omega
  | alt a b iha ihb =>
    intro s caps k r hle h
    simp only [matchR_alt] at h
    split at h
    · rename_i r' hr'
      obtain ⟨t, caps', hsuf, hlen, hk⟩ := iha s caps k r' hle hr'
      refine ⟨t, caps', hsuf, ?_, by rw [hk, h]⟩
      simp only [minLen]
      omega
    · obtain ⟨t, caps', hsuf, hlen, hk⟩ := ihb s caps k r hle h
      refine ⟨t, caps', hsuf, ?_, hk⟩
      simp only [minLen]
      omega
  | star lz a iha =>
    intro s caps k r hle h
    have hbody : matchR a s caps (fun s' caps' =>
        if s'.length < s.length then matchR (.star lz a) s' caps' k else none) = some r →
        ∃ t caps2, t <:+ s ∧ t.length + minLen (.star lz a) ≤ s.length ∧ k t caps2 = some r := by
      intro hb
      obtain ⟨t, caps', hsuf, hlen, hk⟩ := iha s caps _ r hle hb
      split at hk
      · rename_i hlt
        obtain ⟨t2, caps2, hsuf2, hlen2, hk2⟩ :=
          ih t.length (lt_of_lt_of_le hlt hle) (.star lz a) t caps' k r le_rfl hk
        refine ⟨t2, caps2, hsuf2.trans hsuf, ?_, hk2⟩
        have := hsuf2.length_le
        simp only [minLen] at hlen2 ⊢
        omega
      · exact absurd hk (by simp)
    cases lz with
    | true =>
      rw [matchR_star_lazy] at h
      split at h
      · rename_i r' hr'
        injection h with h2
        subst h2
        exact ⟨s, caps, List.suffix_refl s, by simp [minLen], hr'⟩
      · exact hbody h
    | false =>
      rw [matchR_star_greedy] at h
      split at h
      · rename_i r' hr'
        injection h with h2
        subst h2
        exact hbody hr'
      · exact ⟨s, caps, List.suffix_refl s, by simp [minLen], h⟩
  | grp i a iha =>
    intro s caps k r hle h
    simp only [matchR_grp] at h
    obtain ⟨t, caps', hsuf, hlen, hk⟩ := iha s caps _ r hle h
    refine ⟨t, setCap i (s.take (s.length - t.length)) caps', hsuf, ?_, hk⟩
    simp only [minLen]
    omega
  | look a iha =>
    intro s caps k r hle h
    simp only [matchR_look] at h
    split at h
    · rename_i s' caps' hp
      exact ⟨s, caps', List.suffix_refl s, by simp [minLen], h⟩
    · exact absurd h (by simp)

/-- If the matcher succeeds, its result came from the continuation
applied to a suffix of the input, past at least `minLen re`
characters. -/
theorem matchR_some_suffix {re : RE} {s : List Char} {caps : Caps}
    {k : List Char → Caps → Option (List Char × Caps)} {r : List Char × Caps}
    (h : matchR re s caps k = some r) :
    ∃ t caps', t <:+ s ∧ t.length + minLen re ≤ s.length ∧ k t caps' = some r :=
  matchR_some_suffix_aux s.length re s caps k r le_rfl h

/-- If the continuation fails on every suffix of the input, the matcher
fails. -/
theorem matchR_none_of_k {re : RE} {s : List Char} {caps : Caps}
    {k : List Char → Caps → Option (List Char × Caps)}
    (h : ∀ t caps', t <:+ s → k t caps' = none) : matchR re s caps k = none := by
  cases hm : matchR re s caps k with
  | none => rfl
  | some r =>
    obtain ⟨t, caps', hsuf, _, hk⟩ := matchR_some_suffix hm
    rw [h t caps' hsuf] at hk
    exact absurd hk (by simp)

theorem matchR_congr_aux (n : Nat) :
    ∀ (re : RE) (s : List Char) (caps : Caps)
      (k₁ k₂ : List Char → Caps → Option (List Char × Caps)),
      s.length ≤ n →
      (∀ t caps', t <:+ s → t.length + minLen re ≤ s.length → k₁ t caps' = k₂ t caps') →
      matchR re s caps k₁ = matchR re s caps k₂ := by
  induction n using Nat.strong_induction_on with
  | _ n ih =>
  intro re
  induction re with
  | eps =>
    intro s caps k₁ k₂ hle h
    simpa using h s caps (List.suffix_refl s) (by simp [minLen])
  | ch c =>
    intro s caps k₁ k₂ hle h
    match s with
    | [] => simp
    | d :: rest =>
      simp only [matchR_ch_cons]
      split
      · exact h rest caps (List.suffix_cons d rest) (by simp [minLen])
      · rfl
  | cls p =>
    intro s caps k₁ k₂ hle h
    match s with
    | [] => simp
    | d :: rest =>
      simp only [matchR_cls_cons]
      split
      · exact h rest caps (List.suffix_cons d rest) (by simp [minLen])
      · rfl
  | cat a b iha ihb =>
    intro s caps k₁ k₂ hle h
    rw [matchR_cat, matchR_cat]
    refine iha s caps _ _ hle ?_
    intro t caps' hsuf hmin
    refine ihb t caps' k₁ k₂ (le_trans hsuf.length_le hle) ?_
    intro t2 caps2 hsuf2 hmin2
    refine h t2 caps2 (hsuf2.trans hsuf) ?_
    simp only [minLen]
    omega
  | alt a b iha ihb =>
    intro s caps k₁ k₂ hle h
    simp only [matchR_alt]
    rw [iha s caps k₁ k₂ hle (fun t c hs hm => h t c hs (by simp only [minLen]; omega)),
      ihb s caps k₁ k₂ hle (fun t c hs hm => h t c hs (by simp only [minLen]; omega))]
  | star lz a iha =>
    intro s caps k₁ k₂ hle h
    have hstep : ∀ (t : List Char) (caps' : Caps), t <:+ s → t.length + minLen a ≤ s.length →
        (if t.length < s.length then matchR (.star lz a) t caps' k₁ else none) =
        (if t.length < s.length then matchR (.star lz a) t caps' k₂ else none) := by
      intro t caps' hsuf hmin
      split
      · rename_i hlt
        refine ih t.length (lt_of_lt_of_le hlt hle) (.star lz a) t caps' k₁ k₂ le_rfl ?_
        intro t2 caps2 hs2 hm2
        refine h t2 caps2 (hs2.trans hsuf) ?_
        have := hs2.length_le
        simp only [minLen] at hm2 ⊢
        omega
      · rfl
    cases lz with
    | true =>
      rw [matchR_star_lazy, matchR_star_lazy,
        h s caps (List.suffix_refl s) (by simp [minLen])]
      rw [iha s caps _ _ hle hstep]
    | false =>
      rw [matchR_star_greedy, matchR_star_greedy,
        h s caps (List.suffix_refl s) (by simp [minLen])]
      rw [iha s caps _ _ hle hstep]
  | grp i a iha =>
    intro s caps k₁ k₂ hle h
    simp only [matchR_grp]
    exact iha s caps _ _ hle (fun t caps' hsuf hmin => h t _ hsuf (by simpa [minLen] using hmin))
  | look a iha =>
    intro s caps k₁ k₂ hle h
    simp only [matchR_look]
    split
    · exact h s _ (List.suffix_refl s) (by simp [minLen])
    · rfl

/-- The matcher only looks at the continuation's values on suffixes of
the input past at least `minLen re` consumed characters. -/
theorem matchR_congr {re : RE} {s : List Char} {caps : Caps}
    {k₁ k₂ : List Char → Caps → Option (List Char × Caps)}
    (h : ∀ t caps', t <:+ s → t.length + minLen re ≤ s.length → k₁ t caps' = k₂ t caps') :
    matchR re s caps k₁ = matchR re s caps k₂ :=
  matchR_congr_aux s.length re s caps k₁ k₂ le_rfl h

/-- Guard-free unfolding of a lazy star whose body always consumes at
least one character. -/
theorem matchR_star_lazy_cons (a : RE) (ha : 1 ≤ minLen a)
    (s : List Char) (caps : Caps) (k) :
    matchR (.star true a) s caps k =
      (match k s caps with
       | some r => some r
       | none => matchR a s caps (fun s' caps' => matchR (.star true a) s' caps' k)) := by
  rw [matchR_star_lazy]
  have heq : matchR a s caps (fun s' caps' =>
      if s'.length < s.length then matchR (.star true a) s' caps' k else none) =
      matchR a s caps (fun s' caps' => matchR (.star true a) s' caps' k) := by
    refine matchR_congr ?_
    intro t caps' hsuf hmin
    rw [if_pos (by omega)]
  rw [heq]

/-- Guard-free unfolding of a greedy star whose body always consumes at
least one character. -/
theorem matchR_star_greedy_cons (a : RE) (ha : 1 ≤ minLen a)
    (s : List Char) (caps : Caps) (k) :
    matchR (.star false a) s caps k =
      (match matchR a s caps (fun s' caps' => matchR (.star false a) s' caps' k) with
       | some r => some r
       | none => k s caps) := by
  rw [matchR_star_greedy]
  have heq : matchR a s caps (fun s' caps' =>
      if s'.length < s.length then matchR (.star false a) s' caps' k else none) =
      matchR a s caps (fun s' caps' => matchR (.star false a) s' caps' k) := by
    refine matchR_congr ?_
    intro t caps' hsuf hmin
    rw [if_pos (by omega)]
  rw [heq]

theorem searchAux_eq (re : RE) (pre : List Char) (s : List Char) :
    searchAux re pre s =
      (search re s).map (fun r => (pre.reverse ++ r.1, r.2.1, r.2.2.1, r.2.2.2)) := by
  induction s generalizing pre with
  | nil =>
    rw [search, searchAux, searchAux]
    cases matchR re [] [] (fun rest caps => some (rest, caps)) with
    | some r => simp
    | none => simp
  | cons c tail ih =>
    rw [search, searchAux, searchAux]
    cases matchR re (c :: tail) [] (fun rest caps => some (rest, caps)) with
    | some r => simp
    | none =>
      simp only []
      rw [ih (c :: pre), ih [c]]
      cases search re tail with
      | some r => simp
      | none => simp

theorem search_cons_of_none {re : RE} {c : Char} {t : List Char}
    (h : matchR re (c :: t) [] (fun rest caps => some (rest, caps)) = none) :
    search re (c :: t) =
      (search re t).map (fun r => (c :: r.1, r.2.1, r.2.2.1, r.2.2.2)) := by
  rw [search, searchAux, h]
  simp only []
  rw [searchAux_eq]
  rfl

theorem search_of_match {re : RE} {s rest : List Char} {caps : Caps}
    (h : matchR re s [] (fun rest caps => some (rest, caps)) = some (rest, caps)) :
    search re s = some ([], s.take (s.length - rest.length), caps, rest) := by
  cases s with
  | nil => rw [search, searchAux, h]; rfl
  | cons c t => rw [search, searchAux, h]; rfl

theorem search_nil_of_none {re : RE}
    (h : matchR re [] [] (fun rest caps => some (rest, caps)) = none) :
    search re [] = none := by
  rw [search, searchAux, h]

/-- Decomposition: a successful search cuts the input into
`before ++ matched ++ after`, and the match consumed at least
`minLen re` characters. -/
theorem search_decomp {re : RE} : ∀ {s b m a : List Char} {caps : Caps},
    search re s = some (b, m, caps, a) → b ++ m ++ a = s ∧ minLen re ≤ m.length := by
  intro s
  induction s with
  | nil =>
    intro b m a caps h
    cases hm : matchR re [] [] (fun rest caps => some (rest, caps)) with
    | some r =>
      obtain ⟨rest, caps0⟩ := r
      rw [search_of_match hm] at h
      obtain ⟨t, caps', hsuf, hlen, hk⟩ := matchR_some_suffix hm
      injection hk with hk
      have ht : t = rest := congrArg Prod.fst hk
      have htn : t = [] := List.suffix_nil.mp hsuf
      have hrest : rest = [] := by rw [← ht, htn]
      subst hrest
      simp only [Option.some.injEq, Prod.mk.injEq] at h
      obtain ⟨hb, hmm, hc, ha⟩ := h
      subst hb hc ha hmm
      subst htn
      constructor
      · rfl
      · simp only [List.length_nil, List.take_nil] at hlen ⊢
        omega
    | none =>
      rw [search_nil_of_none hm] at h
      exact absurd h (by simp)
  | cons c tail ih =>
    intro b m a caps h
    cases hm : matchR re (c :: tail) [] (fun rest caps => some (rest, caps)) with
    | some r =>
      obtain ⟨rest, caps0⟩ := r
      rw [search_of_match hm] at h
      obtain ⟨t, caps', hsuf, hlen, hk⟩ := matchR_some_suffix hm
      injection hk with hk
      have ht : t = rest := congrArg Prod.fst hk
      subst ht
      obtain ⟨u, hu⟩ := hsuf
      simp only [Option.some.injEq, Prod.mk.injEq] at h
      obtain ⟨hb, hmm, hc, ha⟩ := h
      subst hb hc ha
      have hlenu : (c :: tail).length - t.length = u.length := by
        rw [← hu]; simp
      rw [hlenu, ← hu, List.take_left] at hmm
      subst hmm
      constructor
      · simp [hu]
      · have : (c :: tail).length = u.length + t.length := by rw [← hu]; simp
        omega
    | none =>
      rw [search_cons_of_none hm] at h
      cases hs : search re tail with
      | some r =>
        obtain ⟨b', m', caps', a'⟩ := r
        rw [hs] at h
        simp at h
        obtain ⟨hb, hmm, hc, ha⟩ := h
        obtain ⟨ih1, ih2⟩ := ih hs
        subst hb hc ha hmm
        constructor
        · simp only [List.cons_append]
          rw [ih1]
        · exact ih2
      | none =>
        rw [hs] at h
        exact absurd h (by simp)

theorem reSubFuel_fuel (re : RE) (f : Caps → List Char) :
    ∀ (n m : Nat) (s : List Char), s.length < n → s.length < m →
      reSubFuel re f n s = reSubFuel re f m s := by
  intro n
  induction n with
  | zero => intro m s hn _; omega
  | succ n ih =>
    intro m s hn hm
    cases m with
    | zero => omega
    | succ m =>
      rw [reSubFuel, reSubFuel]
      cases hs : search re s with
      | none => rfl
      | some r =>
        obtain ⟨b, m0, caps, a⟩ := r
        simp only []
        split
        · rename_i hlt
          rw [ih m a (by omega) (by omega)]
        · rfl

theorem reSubF_none {re : RE} {s : List Char} (f : Caps → List Char)
    (h : search re s = none) : reSubF re f s = s := by
  rw [reSubF, reSubFuel, h]

theorem reSubF_some {re : RE} {s b m a : List Char} {caps : Caps} (f : Caps → List Char)
    (h : search re s = some (b, m, caps, a)) (hmin : 1 ≤ minLen re) :
    reSubF re f s = b ++ f caps ++ reSubF re f a := by
  obtain ⟨hdec, hlen⟩ := search_decomp h
  have ha : a.length < s.length := by
    rw [← hdec]; simp only [List.length_append]; omega
  rw [reSubF, reSubFuel, h]
  simp only [if_pos ha]
  rw [reSubFuel_fuel re f s.length (a.length + 1) a (by omega) (by omega)]
  rfl

theorem findIterFuel_fuel (re : RE) :
    ∀ (n m : Nat) (s : List Char), s.length < n → s.length < m →
      findIterFuel re n s = findIterFuel re m s := by
  intro n
  induction n with
  | zero => intro m s hn _; omega
  | succ n ih =>
    intro m s hn hm
    cases m with
    | zero => omega
    | succ m =>
      rw [findIterFuel, findIterFuel]
      cases hs : search re s with
      | none => rfl
      | some r =>
        obtain ⟨b, m0, caps, a⟩ := r
        simp only []
        split
        · rename_i hlt
          rw [ih m a (by omega) (by omega)]
        · rfl

theorem findIter_none {re : RE} {s : List Char}
    (h : search re s = none) : findIter re s = [] := by
  rw [findIter, findIterFuel, h]

theorem findIter_some {re : RE} {s b m a : List Char} {caps : Caps}
    (h : search re s = some (b, m, caps, a)) (hmin : 1 ≤ minLen re) :
    findIter re s = (m, caps) :: findIter re a := by
  obtain ⟨hdec, hlen⟩ := search_decomp h
  have ha : a.length < s.length := by
    rw [← hdec]; simp only [List.length_append]; omega
  rw [findIter, findIterFuel, h]
  simp only [if_pos ha]
  rw [findIterFuel_fuel re s.length (a.length + 1) a (by omega) (by omega)]
  rfl

theorem matchR_headChar_ne {re : RE} {d : Char} (hd : headChar re = some d)
    {c : Char} (hc : c ≠ d) (t : List Char) (caps : Caps) (k) :
    matchR re (c :: t) caps k = none := by
  induction re generalizing k with
  | ch e =>
    simp only [headChar, Option.some.injEq] at hd
    subst hd
    simp [hc]
  | cat a b iha ihb =>
    rw [matchR_cat]
    exact iha hd _
  | grp i a iha =>
    rw [matchR_grp]
    exact iha hd _
  | eps => simp [headChar] at hd
  | cls p => simp [headChar] at hd
  | alt a b iha ihb => simp [headChar] at hd
  | star lz a iha => simp [headChar] at hd
  | look a iha => simp [headChar] at hd

theorem matchR_nil_of_minLen {re : RE} (h : 1 ≤ minLen re) (caps : Caps) (k) :
    matchR re [] caps k = none := by
  cases hm : matchR re [] caps k with
  | none => rfl
  | some r =>
    obtain ⟨t, caps', hsuf, hlen, _⟩ := matchR_some_suffix hm
    simp only [List.length_nil] at hlen
    omega

/-- If the pattern's matches must all start with character `d` and `d`
does not occur in `s`, the search fails. -/
theorem search_none_of_headChar {re : RE} {d : Char} (hd : headChar re = some d)
    (hmin : 1 ≤ minLen re) {s : List Char} (hs : d ∉ s) :
    search re s = none := by
  induction s with
  | nil => exact search_nil_of_none (matchR_nil_of_minLen hmin _ _)
  | cons c t ih =>
    have hcd : c ≠ d := fun hcontra => hs (hcontra ▸ List.mem_cons_self c t)
    rw [search_cons_of_none (matchR_headChar_ne hd hcd t [] _),
      ih (fun hmem => hs (List.mem_cons_of_mem c hmem))]
    rfl

/-- A no-match substitution is the identity. -/
theorem reSubF_id_of_headChar {re : RE} {d : Char} (hd : headChar re = some d)
    (hmin : 1 ≤ minLen re) {s : List Char} (hs : d ∉ s) (f : Caps → List Char) :
    reSubF re f s = s :=
  reSubF_none f (search_none_of_headChar hd hmin hs)

theorem expandFuel_fuel (ng : Nat) (names : List (String × Nat)) (m0 : List Char)
    (caps : Caps) : ∀ (n m : Nat) (l : List Char), l.length < n → l.length < m →
      expandFuel ng names m0 caps n l = expandFuel ng names m0 caps m l := by
  intro n
  induction n with
  | zero => intro m l hn _; omega
  | succ n ih =>
    intro m l hn hm
    cases m with
    | zero => omega
    | succ m =>
      cases l with
      | nil => rw [expandFuel, expandFuel]
      | cons c rest =>
        rw [expandFuel, expandFuel]
        split
        · cases he : escStep ng names m0 caps rest with
          | error e => rfl
          | ok pr =>
            obtain ⟨chunk, rest'⟩ := pr
            simp only []
            split
            · rename_i hlt
              rw [ih m rest' (by simp at hn; omega) (by simp at hm; omega)]
            · rfl
        · rw [ih m rest (by simp at hn; omega) (by simp at hm; omega)]

theorem expandT_nil (ng : Nat) (names : List (String × Nat)) (m0 : List Char)
    (caps : Caps) : expandT ng names m0 caps [] = .ok [] := rfl

theorem expandT_cons {c : Char} (hc : c ≠ '\\') (ng : Nat) (names : List (String × Nat))
    (m0 : List Char) (caps : Caps) (rest : List Char) :
    expandT ng names m0 caps (c :: rest) =
      (expandT ng names m0 caps rest).map (fun out => c :: out) := by
  rw [expandT, expandFuel, if_neg hc]
  show (match expandFuel ng names m0 caps (rest.length + 1) rest with
    | Except.error e => Except.error e
    | Except.ok out => Except.ok (c :: out)) =
    Except.map (fun out => c :: out) (expandFuel ng names m0 caps (rest.length + 1) rest)
  cases expandFuel ng names m0 caps (rest.length + 1) rest <;> rfl

theorem expandT_esc_err {e : String} {ng : Nat} {names : List (String × Nat)}
    {m0 : List Char} {caps : Caps} {rest : List Char}
    (he : escStep ng names m0 caps rest = .error e) :
    expandT ng names m0 caps ('\\' :: rest) = .error e := by
  rw [expandT, expandFuel, if_pos rfl, he]

theorem expandT_esc_ok {chunk rest' : List Char} {ng : Nat} {names : List (String × Nat)}
    {m0 : List Char} {caps : Caps} {rest : List Char}
    (he : escStep ng names m0 caps rest = .ok (chunk, rest'))
    (hlen : rest'.length ≤ rest.length) :
    expandT ng names m0 caps ('\\' :: rest) =
      (expandT ng names m0 caps rest').map (fun out => chunk ++ out) := by
  rw [expandT, expandFuel, if_pos rfl, he]
  simp only [if_pos (by omega : rest'.length < rest.length + 1), List.length_cons]
  rw [expandFuel_fuel ng names m0 caps (rest.length + 1) (rest'.length + 1) rest'
    (by omega) (by omega)]
  show (match expandFuel ng names m0 caps (rest'.length + 1) rest' with
    | Except.error e => Except.error e
    | Except.ok out => Except.ok (chunk ++ out)) =
    Except.map (fun out => chunk ++ out) (expandFuel ng names m0 caps (rest'.length + 1) rest')
  cases expandFuel ng names m0 caps (rest'.length + 1) rest' <;> rfl

/-! ### Claims -/

/-- Claim C8: the one-block-at-a-time rewrite loops always terminate,
including on pathological input.  This is false: on the input
`<blockquote>\1\2\3</blockquote>` the blockquote loop is at a fixed
point — the contents are used as the replacement template, `\1\2\3`
expand to the opening tag, the contents and the closing tag, so one
substitution step reproduces the input exactly and a matching block
remains forever.  For every fuel bound the loop runs out of fuel
(Python, which has no bound, loops forever). -/
theorem C8_quote_loop_never_terminates :
    ∀ n : Nat,
      Importer.convert_quote_blocks n "<blockquote>\\1\\2\\3</blockquote>".data =
        .error "fuel exhausted" := by
  intro n
  induction n with
  | zero => rfl
  | succ n ih =>
    have hstep :
        Importer.convert_quote_blocks (n + 1) "<blockquote>\\1\\2\\3</blockquote>".data =
          Importer.convert_quote_blocks n "<blockquote>\\1\\2\\3</blockquote>".data := rfl
    rw [hstep, ih]

/-- Claim C1: the full pipeline returns some output for every input
without raising, and an unmatched opening marker is a harmless no-op.
The no-op half holds (second and third conjuncts: unterminated `<ol>`
and `<blockquote>` markers pass through unchanged), but the no-raise
half is false: blockquote contents are passed to `re.sub` as a
replacement template, so contents containing a backslash escape such as
`\d` raise `re.error("bad escape \d")` (first conjunct). -/
theorem C1_convert_raises_on_backslash_content :
    Importer.convert_journey_html_to_dayone_markdown 9 "<blockquote>\nx\n\\d</blockquote>".data
      = .error "bad escape \\d" ∧
    Importer.convert_journey_html_to_dayone_markdown 9 "<ol>x".data = .ok "<ol>x".data ∧
    Importer.convert_journey_html_to_dayone_markdown 9 "<blockquote>x".data
      = .ok "<blockquote>x".data := by
  refine ⟨by decide, by decide, by decide⟩

/-- Claim C7: the pipeline is exactly the five stages in the fixed
order inline, lists, phrases, names, quotes, followed by the final
horizontal-rule substitution, which maps an `<hr>` marker with or
without an extra attribute to a newline and three dashes. -/
theorem C7_convert_is_stage_composition :
    (∀ (fuel : Nat) (text : List Char),
      Importer.convert_journey_html_to_dayone_markdown fuel text =
        (Importer.convert_lists fuel (Importer.convert_simple text)).bind (fun t =>
          (Importer.convert_quote_blocks fuel
            (Importer.fix_name_spellings (Importer.perform_phrase_replacements t))).map
            (fun t => reSubF hr_pat (fun _ => "\n---".data) t))) ∧
    reSubF hr_pat (fun _ => "\n---".data) "a<hr>b".data = "a\n---b".data ∧
    reSubF hr_pat (fun _ => "\n---".data) "a<hr dir=\"auto\">b".data = "a\n---b".data := by
  refine ⟨fun fuel text => ?_, by decide, by decide⟩
  rw [Importer.convert_journey_html_to_dayone_markdown]
  cases h1 : Importer.convert_lists fuel (Importer.convert_simple text) with
  | error e => rfl
  | ok t =>
    simp only [Except.bind]
    cases h2 : Importer.convert_quote_blocks fuel
        (Importer.fix_name_spellings (Importer.perform_phrase_replacements t)) with
    | error e => rfl
    | ok t2 => rfl

theorem convert_simple_id_of_noTags {y : List Char} (h : noRecognizedTags y) :
    Importer.convert_simple y = y := by
  have hmem : ∀ re ∈ simple_patterns, search re y = none := h
  have h1 := hmem em_pat (by simp [simple_patterns, to_replace_simple, to_remove_simple])
  have h2 := hmem strong_pat (by simp [simple_patterns, to_replace_simple, to_remove_simple])
  have h3 := hmem del_pat (by simp [simple_patterns, to_replace_simple, to_remove_simple])
  have h4 := hmem span_pat (by simp [simple_patterns, to_replace_simple, to_remove_simple])
  have h5 := hmem (litS "<h1>") (by simp [simple_patterns, to_replace_simple, to_remove_simple])
  have h6 := hmem (litS "<h2>") (by simp [simple_patterns, to_replace_simple, to_remove_simple])
  have h7 := hmem (litS "<h3>") (by simp [simple_patterns, to_replace_simple, to_remove_simple])
  have h8 := hmem (litS "&nbsp;") (by simp [simple_patterns, to_replace_simple, to_remove_simple])
  have h9 := hmem p_attr_pat (by simp [simple_patterns, to_replace_simple, to_remove_simple])
  have h10 := hmem p_pat (by simp [simple_patterns, to_replace_simple, to_remove_simple])
  have h11 := hmem h_close_pat (by simp [simple_patterns, to_replace_simple, to_remove_simple])
  have h12 := hmem del_close_pat (by simp [simple_patterns, to_replace_simple, to_remove_simple])
  have h13 := hmem span_close_pat (by simp [simple_patterns, to_replace_simple, to_remove_simple])
  rw [Importer.convert_simple]
  simp only [to_replace_simple, to_remove_simple, List.foldl]
  rw [reSubF_none _ h1, reSubF_none _ h2, reSubF_none _ h3, reSubF_none _ h4,
    reSubF_none _ h5, reSubF_none _ h6, reSubF_none _ h7, reSubF_none _ h8,
    reSubF_none _ h9, reSubF_none _ h10, reSubF_none _ h11, reSubF_none _ h12,
    reSubF_none _ h13]

/-- Claim C9: `convert_simple` is idempotent on outputs that contain no
recognized tags: if no rule of `convert_simple` matches anywhere in
`convert_simple x`, a second application is the identity (each `re.sub`
with no match returns its input unchanged). -/
theorem C9_convert_simple_idempotent (x : List Char)
    (h : noRecognizedTags (Importer.convert_simple x)) :
    Importer.convert_simple (Importer.convert_simple x) = Importer.convert_simple x :=
  convert_simple_id_of_noTags h

theorem C9_convert_simple_idempotent_witness :
    noRecognizedTags (Importer.convert_simple "hello <em>world</em>".data) ∧
    Importer.convert_simple (Importer.convert_simple "hello <em>world</em>".data) =
      Importer.convert_simple "hello <em>world</em>".data :=
  ⟨by decide, C9_convert_simple_idempotent _ (by decide)⟩

/-! ### Literal patterns -/

theorem minLen_lit (p : List Char) : minLen (lit p) = p.length := by
  induction p with
  | nil => rfl
  | cons c t ih => simp [lit, minLen, ih]; omega

theorem matchR_lit (p : List Char) :
    ∀ (s : List Char) (caps : Caps) (k),
      matchR (lit p) s caps k =
        if p.isPrefixOf s then k (s.drop p.length) caps else none := by
  induction p with
  | nil =>
    intro s caps k
    simp [lit, List.isPrefixOf]
  | cons c p' ih =>
    intro s caps k
    rw [lit, matchR_cat]
    cases s with
    | nil => simp [List.isPrefixOf]
    | cons d t =>
      rw [matchR_ch_cons]
      by_cases hdc : d = c
      · subst hdc
        rw [if_pos rfl, ih t]
        simp [List.isPrefixOf]
      · rw [if_neg hdc]
        have hpre : (c :: p').isPrefixOf (d :: t) = false := by
          simp [List.isPrefixOf]
          intro hcd
          exact absurd hcd.symm hdc
        simp [hpre]

theorem matchAt_lit2 (p q s : List Char) :
    matchR (.alt (lit p) (lit q)) s [] (fun rest caps => some (rest, caps)) =
      (if p.isPrefixOf s then some (s.drop p.length, ([] : Caps))
       else if q.isPrefixOf s then some (s.drop q.length, ([] : Caps))
       else none) := by
  rw [matchR_alt, matchR_lit, matchR_lit]
  by_cases hp : p.isPrefixOf s
  · simp [hp]
  · simp [hp]

/-- No-match-at-the-head substitutions commute with cons. -/
theorem reSubF_cons_of_none {re : RE} {c : Char} {t : List Char}
    (h : matchR re (c :: t) [] (fun rest caps => some (rest, caps)) = none)
    (hmin : 1 ≤ minLen re) (f : Caps → List Char) :
    reSubF re f (c :: t) = c :: reSubF re f t := by
  have hs := search_cons_of_none h
  cases ht : search re t with
  | none =>
    rw [reSubF_none f (by rw [hs, ht]; rfl), reSubF_none f ht]
  | some r =>
    obtain ⟨b, m, caps, a⟩ := r
    have hsc : search re (c :: t) = some (c :: b, m, caps, a) := by rw [hs, ht]; rfl
    rw [reSubF_some f hsc hmin, reSubF_some f ht hmin]
    simp

theorem replaceLitFuel_fuel (p r : List Char) :
    ∀ (n m : Nat) (s : List Char), s.length < n → s.length < m →
      replaceLitFuel p r n s = replaceLitFuel p r m s := by
  intro n
  induction n with
  | zero => intro m s hn _; omega
  | succ n ih =>
    intro m s hn hm
    cases m with
    | zero => omega
    | succ m =>
      cases s with
      | nil => rw [replaceLitFuel, replaceLitFuel]
      | cons c t =>
        rw [replaceLitFuel, replaceLitFuel]
        split
        · rw [ih m (List.drop (p.length - 1) t) (by have := List.length_drop (p.length - 1) t; simp at hn ⊢; omega) (by have := List.length_drop (p.length - 1) t; simp at hm ⊢; omega)]
        · rw [ih m t (by simp at hn; omega) (by simp at hm; omega)]

theorem replaceLit_nil (p r : List Char) : replaceLit p r [] = [] := rfl

theorem replaceLit_cons_pos {p : List Char} {c : Char} {t : List Char}
    (hpre : p.isPrefixOf (c :: t)) (r : List Char) :
    replaceLit p r (c :: t) = r ++ replaceLit p r (List.drop (p.length - 1) t) := by
  rw [replaceLit, replaceLit, replaceLitFuel, if_pos hpre]
  simp only [List.length_cons]
  rw [replaceLitFuel_fuel p r (t.length + 1) ((List.drop (p.length - 1) t).length + 1)
    (List.drop (p.length - 1) t) (by have := List.length_drop (p.length - 1) t; omega)
    (by omega)]

theorem replaceLit_cons_neg {p : List Char} {c : Char} {t : List Char}
    (hpre : ¬ p.isPrefixOf (c :: t)) (r : List Char) :
    replaceLit p r (c :: t) = c :: replaceLit p r t := by
  rw [replaceLit, replaceLit, replaceLitFuel, if_neg hpre]
  simp only [List.length_cons]

theorem replaceLit2Fuel_fuel (p q r : List Char) :
    ∀ (n m : Nat) (s : List Char), s.length < n → s.length < m →
      replaceLit2Fuel p q r n s = replaceLit2Fuel p q r m s := by
  intro n
  induction n with
  | zero => intro m s hn _; omega
  | succ n ih =>
    intro m s hn hm
    cases m with
    | zero => omega
    | succ m =>
      cases s with
      | nil => rw [replaceLit2Fuel, replaceLit2Fuel]
      | cons c t =>
        rw [replaceLit2Fuel, replaceLit2Fuel]
        split
        · rw [ih m (List.drop (p.length - 1) t) (by have := List.length_drop (p.length - 1) t; simp at hn ⊢; omega) (by have := List.length_drop (p.length - 1) t; simp at hm ⊢; omega)]
        · split
          · rw [ih m (List.drop (q.length - 1) t) (by have := List.length_drop (q.length - 1) t; simp at hn ⊢; omega) (by have := List.length_drop (q.length - 1) t; simp at hm ⊢; omega)]
          · rw [ih m t (by simp at hn; omega) (by simp at hm; omega)]

theorem replaceLit2_nil (p q r : List Char) : replaceLit2 p q r [] = [] := rfl

theorem replaceLit2_cons_p {p q : List Char} {c : Char} {t : List Char}
    (hpre : p.isPrefixOf (c :: t)) (r : List Char) :
    replaceLit2 p q r (c :: t) = r ++ replaceLit2 p q r (List.drop (p.length - 1) t) := by
  rw [replaceLit2, replaceLit2, replaceLit2Fuel, if_pos hpre]
  simp only [List.length_cons]
  rw [replaceLit2Fuel_fuel p q r (t.length + 1) ((List.drop (p.length - 1) t).length + 1)
    (List.drop (p.length - 1) t) (by have := List.length_drop (p.length - 1) t; omega)
    (by omega)]

theorem replaceLit2_cons_q {p q : List Char} {c : Char} {t : List Char}
    (hp : ¬ p.isPrefixOf (c :: t)) (hq : q.isPrefixOf (c :: t)) (r : List Char) :
    replaceLit2 p q r (c :: t) = r ++ replaceLit2 p q r (List.drop (q.length - 1) t) := by
  rw [replaceLit2, replaceLit2, replaceLit2Fuel, if_neg hp, if_pos hq]
  simp only [List.length_cons]
  rw [replaceLit2Fuel_fuel p q r (t.length + 1) ((List.drop (q.length - 1) t).length + 1)
    (List.drop (q.length - 1) t) (by have := List.length_drop (q.length - 1) t; omega)
    (by omega)]

theorem replaceLit2_cons_neg {p q : List Char} {c : Char} {t : List Char}
    (hp : ¬ p.isPrefixOf (c :: t)) (hq : ¬ q.isPrefixOf (c :: t)) (r : List Char) :
    replaceLit2 p q r (c :: t) = c :: replaceLit2 p q r t := by
  rw [replaceLit2, replaceLit2, replaceLit2Fuel, if_neg hp, if_neg hq]
  simp only [List.length_cons]

theorem reSubF_lit_aux (c0 : Char) (p' r : List Char) :
    ∀ (n : Nat) (s : List Char), s.length ≤ n →
      reSubF (lit (c0 :: p')) (fun _ => r) s = replaceLit (c0 :: p') r s := by
  intro n
  induction n with
  | zero =>
    intro s hle
    have hnil : s = [] := List.length_eq_zero.mp (by omega)
    subst hnil
    rw [replaceLit_nil,
      reSubF_none _ (search_nil_of_none (matchR_nil_of_minLen (by rw [minLen_lit]; simp) _ _))]
  | succ n ih =>
    intro s hle
    cases s with
    | nil =>
      rw [replaceLit_nil,
        reSubF_none _ (search_nil_of_none (matchR_nil_of_minLen (by rw [minLen_lit]; simp) _ _))]
    | cons c t =>
      by_cases hpre : (c0 :: p').isPrefixOf (c :: t)
      · have hm : matchR (lit (c0 :: p')) (c :: t) [] (fun rest caps => some (rest, caps)) =
            some ((c :: t).drop (c0 :: p').length, []) := by
          rw [matchR_lit, if_pos hpre]
        have hse := search_of_match hm
        rw [reSubF_some _ hse (by rw [minLen_lit]; simp), replaceLit_cons_pos hpre]
        have hdrop : (c :: t).drop (c0 :: p').length = t.drop ((c0 :: p').length - 1) := by
          simp
        rw [hdrop, ih (t.drop ((c0 :: p').length - 1))
          (by have := List.length_drop ((c0 :: p').length - 1) t; simp at hle; omega)]
        rfl
      · have hm : matchR (lit (c0 :: p')) (c :: t) [] (fun rest caps => some (rest, caps)) =
            none := by
          rw [matchR_lit, if_neg hpre]
        rw [reSubF_cons_of_none hm (by rw [minLen_lit]; simp) _,
          replaceLit_cons_neg hpre, ih t (by simp at hle; omega)]

/-- A substitution of a nonempty literal pattern is exactly the
left-to-right literal replacement `replaceLit`. -/
theorem reSubF_lit (c0 : Char) (p' r s : List Char) :
    reSubF (lit (c0 :: p')) (fun _ => r) s = replaceLit (c0 :: p') r s :=
  reSubF_lit_aux c0 p' r s.length s le_rfl

theorem reSubF_lit2_aux (c0 : Char) (p' : List Char) (d0 : Char) (q' r : List Char) :
    ∀ (n : Nat) (s : List Char), s.length ≤ n →
      reSubF (.alt (lit (c0 :: p')) (lit (d0 :: q'))) (fun _ => r) s =
        replaceLit2 (c0 :: p') (d0 :: q') r s := by
  intro n
  have hminl : 1 ≤ minLen (.alt (lit (c0 :: p')) (lit (d0 :: q'))) := by
    simp [minLen, minLen_lit]
  induction n with
  | zero =>
    intro s hle
    have hnil : s = [] := List.length_eq_zero.mp (by omega)
    subst hnil
    rw [replaceLit2_nil, reSubF_none _ (search_nil_of_none (matchR_nil_of_minLen hminl _ _))]
  | succ n ih =>
    intro s hle
    cases s with
    | nil =>
      rw [replaceLit2_nil, reSubF_none _ (search_nil_of_none (matchR_nil_of_minLen hminl _ _))]
    | cons c t =>
      by_cases hp : (c0 :: p').isPrefixOf (c :: t)
      · have hm : matchR (.alt (lit (c0 :: p')) (lit (d0 :: q'))) (c :: t) []
            (fun rest caps => some (rest, caps)) =
            some ((c :: t).drop (c0 :: p').length, []) := by
          rw [matchAt_lit2, if_pos hp]
        have hse := search_of_match hm
        rw [reSubF_some _ hse hminl, replaceLit2_cons_p hp]
        have hdrop : (c :: t).drop (c0 :: p').length = t.drop ((c0 :: p').length - 1) := by
          simp
        rw [hdrop, ih (t.drop ((c0 :: p').length - 1))
          (by have := List.length_drop ((c0 :: p').length - 1) t; simp at hle; omega)]
        rfl
      · by_cases hq : (d0 :: q').isPrefixOf (c :: t)
        · have hm : matchR (.alt (lit (c0 :: p')) (lit (d0 :: q'))) (c :: t) []
              (fun rest caps => some (rest, caps)) =
              some ((c :: t).drop (d0 :: q').length, []) := by
            rw [matchAt_lit2, if_neg hp, if_pos hq]
          have hse := search_of_match hm
          rw [reSubF_some _ hse hminl, replaceLit2_cons_q hp hq]
          have hdrop : (c :: t).drop (d0 :: q').length = t.drop ((d0 :: q').length - 1) := by
            simp
          rw [hdrop, ih (t.drop ((d0 :: q').length - 1))
            (by have := List.length_drop ((d0 :: q').length - 1) t; simp at hle; omega)]
          rfl
        · have hm : matchR (.alt (lit (c0 :: p')) (lit (d0 :: q'))) (c :: t) []
              (fun rest caps => some (rest, caps)) = none := by
            rw [matchAt_lit2, if_neg hp, if_neg hq]
          rw [reSubF_cons_of_none hm hminl _, replaceLit2_cons_neg hp hq,
            ih t (by simp at hle; omega)]

/-- A substitution of a two-literal alternation is exactly the
left-to-right literal replacement `replaceLit2`. -/
theorem reSubF_lit2 (c0 : Char) (p' : List Char) (d0 : Char) (q' r s : List Char) :
    reSubF (.alt (lit (c0 :: p')) (lit (d0 :: q'))) (fun _ => r) s =
      replaceLit2 (c0 :: p') (d0 :: q') r s :=
  reSubF_lit2_aux c0 p' d0 q' r s.length s le_rfl

theorem reSubF_lit' (p r : List Char) (hp : p ≠ []) (s : List Char) :
    reSubF (lit p) (fun _ => r) s = replaceLit p r s := by
  cases p with
  | nil => exact absurd rfl hp
  | cons c0 p' => exact reSubF_lit c0 p' r s

theorem reSubF_lit2' (p q r : List Char) (hp : p ≠ []) (hq : q ≠ []) (s : List Char) :
    reSubF (.alt (lit p) (lit q)) (fun _ => r) s = replaceLit2 p q r s := by
  cases p with
  | nil => exact absurd rfl hp
  | cons c0 p' =>
    cases q with
    | nil => exact absurd rfl hq
    | cons d0 q' => exact reSubF_lit2 c0 p' d0 q' r s

/-- Claim C6: `fix_name_spellings` is exactly the table-driven chain of
literal replacements, in table-iteration order: for each canonical
entry, (a) every all-lowercase occurrence of the canonical name becomes
the canonical form, then (b) for each known misspelling, its
all-uppercase occurrence becomes the canonical's all-uppercase form and
its table-cased-or-lowercase occurrence becomes the canonical form;
the entry with no misspellings (`Name Three`, `[None]` in the table)
gets only rule (a).  The second conjunct exercises all rules on a
concrete input (an already-correct all-caps name is untouched). -/
theorem C6_fix_name_spellings_is_table_chain :
    (∀ s : List Char,
      Importer.fix_name_spellings s =
        replaceLit "name three".data "Name Three".data
          (replaceLit2 "Neme Two".data "neme two".data "Name Two".data
            (replaceLit "NEME TWO".data "NAME TWO".data
              (replaceLit2 "Nome Two".data "nome two".data "Name Two".data
                (replaceLit "NOME TWO".data "NAME TWO".data
                  (replaceLit "name two".data "Name Two".data
                    (replaceLit2 "Nome One".data "nome one".data "Name One".data
                      (replaceLit "NOME ONE".data "NAME ONE".data
                        (replaceLit "name one".data "Name One".data s))))))))) ∧
    Importer.fix_name_spellings
        "NOME ONE nome one Nome One name one name three NAME THREE".data =
      "NAME ONE Name One Name One Name One Name Three NAME THREE".data := by
  constructor
  · intro s
    have e1 : strLower "Name One" = "name one" := by decide
    have e2 : strUpper "Nome One" = "NOME ONE" := by decide
    have e3 : strUpper "Name One" = "NAME ONE" := by decide
    have e4 : strLower "Nome One" = "nome one" := by decide
    have e5 : strLower "Name Two" = "name two" := by decide
    have e6 : strUpper "Nome Two" = "NOME TWO" := by decide
    have e7 : strUpper "Name Two" = "NAME TWO" := by decide
    have e8 : strLower "Nome Two" = "nome two" := by decide
    have e9 : strUpper "Neme Two" = "NEME TWO" := by decide
    have e10 : strLower "Neme Two" = "neme two" := by decide
    have e11 : strLower "Name Three" = "name three" := by decide
    rw [Importer.fix_name_spellings]
    simp only [names_to_fix, List.foldl, litS]
    rw [e1, e2, e3, e4, e5, e6, e7, e8, e9, e10, e11]
    rw [ reSubF_lit' "name one".data "Name One".data (by decide),
      reSubF_lit' "NOME ONE".data "NAME ONE".data (by decide),
      reSubF_lit2' "Nome One".data "nome one".data "Name One".data (by decide) (by decide),
      reSubF_lit' "name two".data "Name Two".data (by decide),
      reSubF_lit' "NOME TWO".data "NAME TWO".data (by decide),
      reSubF_lit2' "Nome Two".data "nome two".data "Name Two".data (by decide) (by decide),
      reSubF_lit' "NEME TWO".data "NAME TWO".data (by decide),
      reSubF_lit2' "Neme Two".data "neme two".data "Name Two".data (by decide) (by decide),
      reSubF_lit' "name three".data "Name Three".data (by decide)]
  · decide

/-! ### Expansion of the loop templates -/

/-- A backslash-free chunk of a template expands to itself. -/
theorem expandT_append_safe {u : List Char} (hu : '\\' ∉ u) (ng : Nat)
    (names : List (String × Nat)) (m0 : List Char) (caps : Caps) (l : List Char) :
    expandT ng names m0 caps (u ++ l) =
      (expandT ng names m0 caps l).map (fun out => u ++ out) := by
  induction u with
  | nil =>
    simp only [List.nil_append]
    cases expandT ng names m0 caps l <;> rfl
  | cons c u' ih =>
    have hc : c ≠ '\\' := fun hcc => hu (hcc ▸ List.mem_cons_self c u')
    rw [List.cons_append, expandT_cons hc,
      ih (fun hmem => hu (List.mem_cons_of_mem c hmem))]
    cases expandT ng names m0 caps l <;> rfl

/-- A backslash-free template expands to itself. -/
theorem expandT_safe {u : List Char} (hu : '\\' ∉ u) (ng : Nat)
    (names : List (String × Nat)) (m0 : List Char) (caps : Caps) :
    expandT ng names m0 caps u = .ok u := by
  have h := expandT_append_safe hu ng names m0 caps []
  simp only [List.append_nil] at h
  rw [h, expandT_nil]
  simp [Except.map]

/-- `\n` in a template is a newline. -/
theorem expandT_newline (ng : Nat) (names : List (String × Nat)) (m0 : List Char)
    (caps : Caps) (rest : List Char) :
    expandT ng names m0 caps ('\\' :: 'n' :: rest) =
      (expandT ng names m0 caps rest).map (fun out => '\n' :: out) := by
  rw [expandT_esc_ok (by rfl) (by simp)]
  cases expandT ng names m0 caps rest <;> rfl

/-- `\2` followed by a non-digit (or nothing) is a reference to group 2
when the pattern has at least two groups. -/
theorem expandT_backref2 {sub : List Char} (hsub : ∀ d, sub.head? = some d → ¬ d.isDigit)
    {ng : Nat} (hng : 2 ≤ ng) (names : List (String × Nat)) (m0 : List Char) (caps : Caps) :
    expandT ng names m0 caps ('\\' :: '2' :: sub) =
      (expandT ng names m0 caps sub).map (fun out => capOr caps 2 ++ out) := by
  have h2 : digVal '2' ≤ ng := by
    have hv : digVal '2' = 2 := rfl
    omega
  cases sub with
  | nil =>
    have hesc : escStep ng names m0 caps ['2'] = .ok (capOr caps 2, []) := by
      have hshape : escStep ng names m0 caps ['2'] =
          if digVal '2' ≤ ng then .ok (groupVal m0 caps (digVal '2'), [])
          else .error "invalid group reference" := rfl
      rw [hshape, if_pos h2]
      rfl
    rw [expandT_esc_ok hesc (by simp)]
  | cons d t =>
    have hd : d.isDigit = false := by
      have := hsub d rfl
      simp at this
      exact this
    have hesc : escStep ng names m0 caps ('2' :: d :: t) = .ok (capOr caps 2, d :: t) := by
      simp only [escStep.eq_def]
      simp [hd, h2]
      rfl
    rw [expandT_esc_ok hesc (by simp)]

/-- One `count=1` substitution with template `\2` followed by a
benign chunk: the matched block is replaced by group 2 (the captured
whitespace) and the chunk, in place. -/
theorem reSub1T_backref2_step {re : RE} {text b m a sub : List Char} {caps : Caps}
    (h : search re text = some (b, m, caps, a))
    (hsub : '\\' ∉ sub) (hhead : ∀ d, sub.head? = some d → ¬ d.isDigit)
    {ng : Nat} (hng : 2 ≤ ng) (names : List (String × Nat)) :
    reSub1T re ng names ('\\' :: '2' :: sub) text = .ok (b ++ (capOr caps 2 ++ sub) ++ a) := by
  rw [reSub1T, h]
  dsimp only
  rw [expandT_backref2 hhead hng names m caps, expandT_safe hsub]
  rfl

/-- Claim C5: for a located unordered/task-list block, in the task-list
branch each checked-state item marker becomes a newline and `- [X] `
and each default marker a newline and `- [ ] ` (first two conjuncts:
those substitutions are literal replacements of every marker); in the
plain branch every marker becomes a newline and `- ` (third conjunct);
closing item markers are removed with no replacement text (fourth
conjunct, both closing spellings); the rewritten contents replace the
whole block after the captured whitespace (fifth conjunct); and the
task and plain examples convert end to end (last conjuncts). -/
theorem C5_ul_and_task_markers :
    (∀ s : List Char, reSubF li_checked (fun _ => "\n- [X] ".data) s =
        replaceLit "<li data-checked=\"true\">".data "\n- [X] ".data s) ∧
    (∀ s : List Char, reSubF (litS "<li>") (fun _ => "\n- [ ] ".data) s =
        replaceLit "<li>".data "\n- [ ] ".data s) ∧
    (∀ s : List Char, reSubF (litS "<li>") (fun _ => "\n- ".data) s =
        replaceLit "<li>".data "\n- ".data s) ∧
    reSubF li_close (fun _ => []) "</li>x<\\/li>".data = "x".data ∧
    (∀ (text b m a sub : List Char) (caps : Caps),
      search ul_parent text = some (b, m, caps, a) →
      '\\' ∉ sub → (∀ d, sub.head? = some d → ¬ d.isDigit) →
      reSub1T ul_parent 4 ul_names ('\\' :: '2' :: sub) text =
        .ok (b ++ (capOr caps 2 ++ sub) ++ a)) ∧
    Importer.convert_lists 5
        "<ul class=\"task\"><li data-checked=\"true\">Done</li><li>Todo</li></ul>".data
      = .ok "\n- [X] Done\n- [ ] Todo".data ∧
    Importer.convert_lists 5 "<ul><li>X</li><li>Y</li></ul>".data = .ok "\n- X\n- Y".data := by
  refine ⟨?_, ?_, ?_, by decide, ?_, by decide, by decide⟩
  · intro s
    exact reSubF_lit' "<li data-checked=\"true\">".data "\n- [X] ".data (by decide) s
  · intro s
    exact reSubF_lit' "<li>".data "\n- [ ] ".data (by decide) s
  · intro s
    exact reSubF_lit' "<li>".data "\n- ".data (by decide) s
  · intro text b m a sub caps h hsub hhead
    exact reSub1T_backref2_step h hsub hhead (by omega) ul_names

theorem C5_ul_and_task_markers_witness :
    reSub1T ul_parent 4 ul_names ('\\' :: '2' :: "\n- X".data) "<ul><li>X</li></ul>".data
      = .ok ([] ++ (capOr [(4, "</ul>".data), (3, "<li>X</li>".data), (2, []),
          (1, "<ul>".data)] 2 ++ "\n- X".data) ++ []) :=
  C5_ul_and_task_markers.2.2.2.2.1 "<ul><li>X</li></ul>".data []
    "<ul><li>X</li></ul>".data [] "\n- X".data
    [(4, "</ul>".data), (3, "<li>X</li>".data), (2, []), (1, "<ul>".data)]
    (by decide) (by decide) (by decide)

/-! ### Ordered-list item numbering (claim C3) -/

theorem digitChar_isDigit {m : Nat} (h : m < 10) : (Nat.digitChar m).isDigit = true := by
  interval_cases m <;> decide

theorem toDigitsCore_all_digits :
    ∀ (fuel n : Nat) (acc : List Char), (∀ c ∈ acc, c.isDigit = true) →
      ∀ c ∈ Nat.toDigitsCore 10 fuel n acc, c.isDigit = true := by
  intro fuel
  induction fuel with
  | zero =>
    intro n acc hacc c hc
    rw [Nat.toDigitsCore] at hc
    exact hacc c hc
  | succ fuel ih =>
    intro n acc hacc c hc
    rw [Nat.toDigitsCore] at hc
    have hd : (Nat.digitChar (n % 10)).isDigit = true :=
      digitChar_isDigit (Nat.mod_lt n (by omega))
    split at hc
    · rcases List.mem_cons.mp hc with hc | hc
      · rw [hc]; exact hd
      · exact hacc c hc
    · refine ih (n / 10) _ ?_ c hc
      intro c' hc'
      rcases List.mem_cons.mp hc' with hc' | hc'
      · rw [hc']; exact hd
      · exact hacc c' hc'

/-- Every character of `str(k)` is a decimal digit. -/
theorem repr_data_digits (n : Nat) : ∀ c ∈ (Nat.repr n).data, c.isDigit = true := by
  intro c hc
  have hdata : (Nat.repr n).data = Nat.toDigits 10 n := rfl
  rw [hdata, Nat.toDigits] at hc
  exact toDigitsCore_all_digits (n + 1) n [] (by simp) c hc

theorem repr_no_backslash (n : Nat) : '\\' ∉ (Nat.repr n).data := by
  intro hmem
  have hd := repr_data_digits n '\\' hmem
  exact absurd hd (by decide)

theorem except_map_map {α β γ ε : Type} (f : β → γ) (g : α → β) (x : Except ε α) :
    (x.map g).map f = x.map (fun a => f (g a)) := by
  cases x <;> rfl

theorem olFold_eq_flatten (L : List (Nat × (List Char × Caps))) :
    ∀ acc : List Char,
      L.foldl (fun acc ic =>
        acc ++ ('\\' :: 'n' :: (Nat.repr (ic.1 + 1)).data) ++ ('.' :: ' ' :: []) ++
          capOr ic.2.2 2 ++ capOr ic.2.2 4) acc =
      acc ++ (L.map olChunkT).flatten := by
  induction L with
  | nil => intro acc; simp
  | cons ic L' ih =>
    intro acc
    rw [List.foldl_cons, ih]
    simp [olChunkT, List.append_assoc]

theorem expandT_olChunk (ic : Nat × (List Char × Caps))
    (h2 : '\\' ∉ capOr ic.2.2 2) (h4 : '\\' ∉ capOr ic.2.2 4)
    (ng : Nat) (names : List (String × Nat)) (m0 : List Char) (caps : Caps)
    (l : List Char) :
    expandT ng names m0 caps (olChunkT ic ++ l) =
      (expandT ng names m0 caps l).map (fun out => olChunkOut ic ++ out) := by
  have hshape : olChunkT ic ++ l =
      '\\' :: 'n' :: ((Nat.repr (ic.1 + 1)).data ++
        ('.' :: ' ' :: (capOr ic.2.2 2 ++ (capOr ic.2.2 4 ++ l)))) := by
    simp [olChunkT, List.append_assoc]
  rw [hshape, expandT_newline, expandT_append_safe (repr_no_backslash (ic.1 + 1)),
    expandT_cons (by decide : '.' ≠ '\\'), expandT_cons (by decide : ' ' ≠ '\\'),
    expandT_append_safe h2, expandT_append_safe h4]
  simp only [except_map_map]
  cases expandT ng names m0 caps l with
  | error e => rfl
  | ok out =>
    simp [Except.map, olChunkOut, List.append_assoc]

theorem expandT_olChunks (ng : Nat) (names : List (String × Nat)) (m0 : List Char)
    (caps : Caps) :
    ∀ L : List (Nat × (List Char × Caps)),
      (∀ ic ∈ L, '\\' ∉ capOr ic.2.2 2 ∧ '\\' ∉ capOr ic.2.2 4) →
      expandT ng names m0 caps (L.map olChunkT).flatten =
        .ok (L.map olChunkOut).flatten := by
  intro L
  induction L with
  | nil => intro _; simp [expandT_nil]
  | cons ic L' ih =>
    intro h
    have hic := h ic (List.mem_cons_self ic L')
    rw [List.map_cons, List.flatten_cons,
      expandT_olChunk ic hic.1 hic.2 ng names m0 caps,
      ih (fun x hx => h x (List.mem_cons_of_mem ic hx))]
    rfl

/-- Claim C3: for every ordered-list block located by `convert_lists`,
the replacement substituted for the whole block is the preserved
captured whitespace (`\2`) followed by, for the k-th item marker found
in the block (1-based, in order of appearance), a newline, the literal
ordinal `"k. "`, the item's inner contents and the trailing whitespace
captured after the item (first conjunct; `olChunkOut` is exactly that
per-item text and `List.enum` pairs each item with its 0-based index).
The second conjunct is the three-item example: items `Alpha`, `Beta`,
`Gamma` come out as `1. Alpha`, `2. Beta`, `3. Gamma` in that order,
newline-separated. -/
theorem C3_ordered_list_numbering :
    (∀ (text b m a : List Char) (caps : Caps),
      search ol_parent text = some (b, m, caps, a) →
      (∀ ic ∈ (findIter li_pat m).enum, '\\' ∉ capOr ic.2.2 2 ∧ '\\' ∉ capOr ic.2.2 4) →
      reSub1T ol_parent 4 [] ('\\' :: '2' ::
        (findIter li_pat m).enum.foldl (fun acc ic =>
          acc ++ ('\\' :: 'n' :: (Nat.repr (ic.1 + 1)).data) ++ ('.' :: ' ' :: []) ++
            capOr ic.2.2 2 ++ capOr ic.2.2 4) []) text =
      .ok (b ++ (capOr caps 2 ++ (((findIter li_pat m).enum.map olChunkOut).flatten)) ++ a)) ∧
    Importer.convert_lists 5 "<ol><li>Alpha</li><li>Beta</li><li>Gamma</li></ol>".data
      = .ok "\n1. Alpha\n2. Beta\n3. Gamma".data := by
  refine ⟨?_, by decide⟩
  intro text b m a caps h hitems
  rw [olFold_eq_flatten, List.nil_append, reSub1T, h]
  dsimp only
  have hhead : ∀ d, (((findIter li_pat m).enum.map olChunkT).flatten).head? = some d →
      ¬ d.isDigit := by
    intro d hd
    cases henum : (findIter li_pat m).enum with
    | nil => rw [henum] at hd; simp at hd
    | cons ic L' =>
      rw [henum] at hd
      rw [List.map_cons, List.flatten_cons] at hd
      have : (olChunkT ic ++ (L'.map olChunkT).flatten).head? = some '\\' := by
        simp [olChunkT]
      rw [this] at hd
      injection hd with hd
      rw [← hd]
      decide
  rw [expandT_backref2 hhead (by omega) [] m caps,
    expandT_olChunks 4 [] m caps _ hitems]
  rfl

theorem C3_ordered_list_numbering_witness :
    reSub1T ol_parent 4 [] ('\\' :: '2' ::
      (findIter li_pat "<ol><li>A</li></ol>".data).enum.foldl (fun acc ic =>
        acc ++ ('\\' :: 'n' :: (Nat.repr (ic.1 + 1)).data) ++ ('.' :: ' ' :: []) ++
          capOr ic.2.2 2 ++ capOr ic.2.2 4) []) "<ol><li>A</li></ol>".data =
    .ok ([] ++ (capOr [(4, "</ol>".data), (3, "<li>A</li>".data), (2, []),
        (1, "<ol>".data)] 2 ++
      (((findIter li_pat "<ol><li>A</li></ol>".data).enum.map olChunkOut).flatten)) ++ []) :=
  C3_ordered_list_numbering.1 "<ol><li>A</li></ol>".data [] "<ol><li>A</li></ol>".data []
    [(4, "</ol>".data), (3, "<li>A</li>".data), (2, []), (1, "<ol>".data)]
    (by decide) (by decide)

/-! ### Toolkit for symbolic matching over composite strings -/

/-- An alternation whose second branch fails reduces to its first
branch. -/
theorem alt_match_id (a b : RE) (s : List Char) (caps : Caps) (k)
    (h : matchR b s caps k = none) :
    matchR (.alt a b) s caps k = matchR a s caps k := by
  rw [matchR_alt]
  cases matchR a s caps k
  · simp [h]
  · rfl

theorem suffix_append_cases {v L t : List Char} (h : v <:+ L ++ t) :
    v <:+ t ∨ ∃ u, u <:+ L ∧ u ≠ [] ∧ v = u ++ t := by
  obtain ⟨p, hp⟩ := h
  by_cases hlen : L.length ≤ p.length
  · left
    have hsplit : p = p.take L.length ++ p.drop L.length := (List.take_append_drop _ p).symm
    rw [hsplit, List.append_assoc] at hp
    obtain ⟨_, h2⟩ := List.append_inj hp (by simp [List.length_take]; omega)
    exact ⟨p.drop L.length, h2⟩
  · right
    have hlv : t.length ≤ v.length := by
      have := congrArg List.length hp
      simp at this
      omega
    have hsplit : v = v.take (v.length - t.length) ++ v.drop (v.length - t.length) :=
      (List.take_append_drop _ v).symm
    rw [hsplit, ← List.append_assoc] at hp
    obtain ⟨h1, h2⟩ := List.append_inj hp (by
      have := congrArg List.length hp
      simp at this ⊢
      omega)
    refine ⟨v.take (v.length - t.length), ⟨p, h1⟩, ?_, hsplit.trans (by rw [h2])⟩
    intro hnil
    have hlen2 := congrArg List.length hnil
    have := congrArg List.length hp
    simp at hlen2 this
    omega

/-- Search fails when the matcher fails at every start position. -/
theorem search_none_of_matchAt {re : RE} {s : List Char}
    (h : ∀ t, t <:+ s → matchR re t [] (fun rest caps => some (rest, caps)) = none) :
    search re s = none := by
  induction s with
  | nil => exact search_nil_of_none (h [] (List.suffix_refl []))
  | cons c tail ih =>
    rw [search_cons_of_none (h (c :: tail) (List.suffix_refl _)),
      ih (fun t ht => h t (ht.trans (List.suffix_cons c tail)))]
    rfl

/-- A prefix whose characters cannot start a match is scanned over. -/
theorem search_append_of_headChar {re : RE} {d : Char} (hd : headChar re = some d)
    {u : List Char} (hu : d ∉ u) (s : List Char) :
    search re (u ++ s) =
      (search re s).map (fun r => (u ++ r.1, r.2.1, r.2.2.1, r.2.2.2)) := by
  induction u with
  | nil =>
    cases hs : search re s with
    | none => rw [List.nil_append, hs]; rfl
    | some r => rw [List.nil_append, hs]; simp
  | cons c u' ih =>
    have hc : c ≠ d := fun hcd => hu (hcd ▸ List.mem_cons_self c u')
    rw [List.cons_append, search_cons_of_none (matchR_headChar_ne hd hc _ _ _),
      ih (fun hmem => hu (List.mem_cons_of_mem c hmem))]
    cases hs : search re s with
    | none => rfl
    | some r => simp

/-- A substitution leaves such a prefix unchanged. -/
theorem reSubF_append_of_headChar {re : RE} {d : Char} (hd : headChar re = some d)
    {u : List Char} (hu : d ∉ u) (hmin : 1 ≤ minLen re) (f : Caps → List Char)
    (s : List Char) :
    reSubF re f (u ++ s) = u ++ reSubF re f s := by
  cases hs : search re s with
  | none =>
    rw [reSubF_none f hs, reSubF_none f (by rw [search_append_of_headChar hd hu, hs]; rfl)]
  | some r =>
    obtain ⟨b, m, caps, a⟩ := r
    have hsa : search re (u ++ s) = some (u ++ b, m, caps, a) := by
      rw [search_append_of_headChar hd hu, hs]; rfl
    rw [reSubF_some f hsa hmin, reSubF_some f hs hmin]
    simp

/-- A lazy star over a class skips a run of class characters to the
first suffix where the continuation succeeds. -/
theorem matchR_lazyStar_skip {P : CharClass} {u t : List Char} {caps : Caps}
    {k : List Char → Caps → Option (List Char × Caps)} {r : List Char × Caps}
    (hu : ∀ c ∈ u, P.mem c = true)
    (hfail : ∀ (v : List Char) (caps' : Caps), v <:+ u ++ t → t.length < v.length →
      k v caps' = none)
    (hk : k t caps = some r) :
    matchR (.star true (.cls P)) (u ++ t) caps k = some r := by
  induction u with
  | nil => rw [List.nil_append, matchR_star_lazy, hk]
  | cons c u' ih =>
    rw [matchR_star_lazy,
      hfail (c :: u' ++ t) caps (List.suffix_refl _) (by simp; omega)]
    rw [List.cons_append, matchR_cls_cons, if_pos (hu c (List.mem_cons_self c u'))]
    have hlt : (u' ++ t).length < (c :: (u' ++ t)).length := by simp
    rw [if_pos hlt]
    exact ih (fun x hx => hu x (List.mem_cons_of_mem c hx))
      (fun v caps' hv hvl => hfail v caps' (hv.trans (by simp)) hvl)

@[simp] theorem capOr_setCap_same (i : Nat) (v : List Char) (caps : Caps) :
    capOr (setCap i v caps) i = v := by
  simp [capOr, setCap, List.find?]

theorem capOr_setCap_ne {i j : Nat} (h : j ≠ i) (v : List Char) (caps : Caps) :
    capOr (setCap i v caps) j = capOr caps j := by
  have hij : (decide (i = j)) = false := by
    simp
    exact fun hji => h hji.symm
  simp [capOr, setCap, List.find?, hij]

/-! ### The inner blockquote substitution, line by line (claim C4) -/

/-- A lazy star over a class fails when the continuation fails on every
suffix. -/
theorem matchR_lazyStar_none {P : CharClass} : ∀ {s : List Char} {caps : Caps}
    {k : List Char → Caps → Option (List Char × Caps)},
    (∀ v caps', v <:+ s → k v caps' = none) →
    matchR (.star true (.cls P)) s caps k = none := by
  intro s
  induction s with
  | nil =>
    intro caps k h
    rw [matchR_star_lazy, h [] caps (List.suffix_refl _)]
    simp
  | cons c t ih =>
    intro caps k h
    rw [matchR_star_lazy, h (c :: t) caps (List.suffix_refl _)]
    rw [matchR_cls_cons]
    by_cases hc : P.mem c
    · rw [if_pos hc]
      simp only [List.length_cons, Nat.lt_succ_self, if_pos]
      exact ih (fun v caps' hv => h v caps' (hv.trans (List.suffix_cons c t)))
    · rw [if_neg hc]

/-- Shape of `quote_contents` as a bare term. -/
theorem quote_contents_shape : quote_contents =
    .cat (.grp 1 (.ch '\n'))
      (.cat (.grp 2 (.cat (.star true (.cls .dotAll)) (.look (.ch '\n')))) .eps) := rfl

/-- The inner pattern `(\n)(?P<contents>.*?(?=\n))` matches a newline
followed by a newline-free run up to (excluding) the next newline,
capturing the run as group 2. -/
theorem quote_contents_matchAt {L z : List Char} (hL : '\n' ∉ L) :
    matchR quote_contents ('\n' :: (L ++ '\n' :: z)) []
      (fun rest caps => some (rest, caps)) =
      some ('\n' :: z, setCap 2 L (setCap 1 ['\n'] [])) := by
  rw [quote_contents_shape, matchR_cat, matchR_grp, matchR_ch_cons, if_pos rfl]
  simp only [List.length_cons, List.length_append, Nat.add_sub_cancel_left]
  have hcap : List.take 1 ('\n' :: (L ++ '\n' :: z)) = ['\n'] := rfl
  rw [hcap, matchR_cat, matchR_grp, matchR_cat]
  refine matchR_lazyStar_skip (fun c _ => rfl) ?_ ?_
  · intro v caps' hv hlen
    rcases suffix_append_cases hv with hvt | ⟨u, hus, hune, rfl⟩
    · exact absurd hvt.length_le (by omega)
    · cases u with
      | nil => exact absurd rfl hune
      | cons u0 u' =>
        have hu0 : u0 ≠ '\n' := fun h => hL (h ▸ hus.subset (List.mem_cons_self _ _))
        simp only [List.cons_append, matchR_look, matchR_ch_cons, if_neg hu0]
  · have hL2 : (L ++ '\n' :: z).length - ('\n' :: z).length = L.length := by simp
    simp only [matchR_look, matchR_ch_cons, matchR_eps, hL2, List.take_left]
    simp

/-- With no newline after the leading one, the lookahead never succeeds
and the inner pattern fails, whatever the continuation. -/
theorem quote_contents_matchAt_none {z : List Char} (hz : '\n' ∉ z) (caps : Caps) (k) :
    matchR quote_contents ('\n' :: z) caps k = none := by
  rw [quote_contents_shape, matchR_cat, matchR_grp, matchR_ch_cons, if_pos rfl]
  rw [matchR_cat, matchR_grp, matchR_cat]
  apply matchR_lazyStar_none
  intro v caps' hv
  cases v with
  | nil => simp [matchR_look]
  | cons v0 v' =>
    have hv0 : v0 ≠ '\n' := fun h => hz (h ▸ hv.subset (List.mem_cons_self _ _))
    simp only [matchR_look, matchR_ch_cons, if_neg hv0]

/-- On a final line with no newline after it, the inner substitution
finds nothing. -/
theorem quote_contents_search_single {Le : List Char} (hLe : '\n' ∉ Le) :
    search quote_contents ('\n' :: Le) = none := by
  apply search_none_of_matchAt
  intro t ht
  rcases List.suffix_cons_iff.mp ht with rfl | hts
  · exact quote_contents_matchAt_none hLe _ _
  · cases t with
    | nil => exact matchR_nil_of_minLen (by decide) _ _
    | cons c t' =>
      have hc : c ≠ '\n' := fun h => hLe (h ▸ hts.subset (List.mem_cons_self c t'))
      exact matchR_headChar_ne (show headChar quote_contents = some '\n' from rfl) hc _ _ _

/-- The inner blockquote substitution on a sequence of newline-free
lines: every line both preceded and followed by a newline gains the
prefix `"> "` (after its preceding newline); the leading segment and the
final line do not. -/
theorem quote_contents_sub_lines :
    ∀ (Ls : List (List Char)) (Le : List Char), (∀ L ∈ Ls, '\n' ∉ L) → '\n' ∉ Le →
    reSubF quote_contents (fun c => '\n' :: '>' :: ' ' :: capOr c 2)
        ((Ls.map (fun L => '\n' :: L)).flatten ++ '\n' :: Le) =
      (Ls.map (fun L => '\n' :: '>' :: ' ' :: L)).flatten ++ '\n' :: Le := by
  intro Ls
  induction Ls with
  | nil =>
    intro Le _ hLe
    simp only [List.map_nil, List.flatten_nil, List.nil_append]
    exact reSubF_none _ (quote_contents_search_single hLe)
  | cons Lh Lt ih =>
    intro Le hLs hLe
    obtain ⟨z, hz⟩ : ∃ z, (Lt.map (fun L => '\n' :: L)).flatten ++ '\n' :: Le = '\n' :: z := by
      cases Lt with
      | nil => exact ⟨Le, by simp⟩
      | cons L2 Lt' =>
        exact ⟨L2 ++ ((Lt'.map (fun L => '\n' :: L)).flatten ++ '\n' :: Le), by simp⟩
    have hLh : '\n' ∉ Lh := hLs Lh (List.mem_cons_self _ _)
    have hmatch := quote_contents_matchAt (z := z) hLh
    have hn : ('\n' :: (Lh ++ '\n' :: z)).length - ('\n' :: z).length = Lh.length + 1 := by
      simp; omega
    have hsearch : search quote_contents ('\n' :: (Lh ++ '\n' :: z)) =
        some ([], '\n' :: Lh, setCap 2 Lh (setCap 1 ['\n'] []), '\n' :: z) := by
      rw [search_of_match hmatch, hn, List.take_succ_cons, List.take_left]
    have harg : ((Lh :: Lt).map (fun L => '\n' :: L)).flatten ++ '\n' :: Le =
        '\n' :: (Lh ++ '\n' :: z) := by
      simp only [List.map_cons, List.flatten_cons, List.cons_append, List.append_assoc, hz]
    rw [harg, reSubF_some _ hsearch (by decide), ← hz,
      ih Le (fun L hL => hLs L (List.mem_cons_of_mem _ hL)) hLe]
    simp

/-- Claim C4 (amended): the blockquote rewrite prefixes with `"> "`
exactly the lines of the inner content that are both *preceded* and
followed by a newline inside the capture — not, as claimed, every line
followed by a newline.  The parts: (1) on content made of a newline-free
leading segment, newline-led newline-free lines, and a final
newline-free line, the inner substitution `> `-prefixes exactly the
middle lines (the final line is indeed not prefixed, but neither is the
leading segment, even though it is followed by a newline); (2) content
with no newline at all is left unchanged; (3) one iteration of the
blockquote loop replaces the whole matched block with the rewritten
inner content, the markers removed, whenever that content is
backslash-free; (4) end to end, the block with inner content
`"\nLine1\nLine2"` becomes `"\n> Line1\nLine2"` — the claimed example
(content `"Line1\nLine2"`) is refuted in the counterexample theorem. -/
theorem C4_quote_block_rewrite :
    (∀ (L0 : List Char) (Ls : List (List Char)) (Le : List Char),
        '\n' ∉ L0 → (∀ L ∈ Ls, '\n' ∉ L) → '\n' ∉ Le →
        reSubF quote_contents (fun c => '\n' :: '>' :: ' ' :: capOr c 2)
            (L0 ++ ((Ls.map (fun L => '\n' :: L)).flatten ++ '\n' :: Le)) =
          L0 ++ ((Ls.map (fun L => '\n' :: '>' :: ' ' :: L)).flatten ++ '\n' :: Le)) ∧
    (∀ c : List Char, '\n' ∉ c →
        reSubF quote_contents (fun cc => '\n' :: '>' :: ' ' :: capOr cc 2) c = c) ∧
    (∀ (fuel : Nat) (text b m a : List Char) (caps : Caps),
        search quote_parent text = some (b, m, caps, a) →
        '\\' ∉ reSubF quote_contents (fun c => '\n' :: '>' :: ' ' :: capOr c 2)
          (capOr caps 2) →
        Importer.quote_loop (fuel + 1) text =
          Importer.quote_loop fuel
            (b ++ reSubF quote_contents (fun c => '\n' :: '>' :: ' ' :: capOr c 2)
              (capOr caps 2) ++ a)) ∧
    Importer.convert_quote_blocks 5 "<blockquote>\nLine1\nLine2</blockquote>".data =
      .ok "\n> Line1\nLine2".data := by
  refine ⟨?_, ?_, ?_, by decide⟩
  · intro L0 Ls Le h0 hs he
    rw [reSubF_append_of_headChar (show headChar quote_contents = some '\n' from rfl) h0
      (by decide) _ _, quote_contents_sub_lines Ls Le hs he]
  · intro c hc
    exact reSubF_id_of_headChar (show headChar quote_contents = some '\n' from rfl)
      (by decide) hc _
  · intro fuel text b m a caps hs hbs
    have hsub : reSub1T quote_parent 3 quote_names
        (reSubF quote_contents (fun c => '\n' :: '>' :: ' ' :: capOr c 2) (capOr caps 2))
        text = .ok (b ++ reSubF quote_contents (fun c => '\n' :: '>' :: ' ' :: capOr c 2)
          (capOr caps 2) ++ a) := by
      rw [reSub1T, hs]
      dsimp only
      rw [expandT_safe hbs]
    rw [Importer.quote_loop, hs]
    dsimp only
    rw [hsub]

/-- Claim C4's claimed example is wrong: on inner content
`"Line1\nLine2"` the code does *not* produce `"> Line1\nLine2"` — the
first line is not preceded by a newline inside the capture, so the inner
pattern (which must consume a preceding newline) never matches it and
the block passes through with no `> ` at all. -/
theorem C4_quote_first_line_unprefixed :
    Importer.convert_quote_blocks 5 "<blockquote>Line1\nLine2</blockquote>".data =
      .ok "Line1\nLine2".data ∧
    Importer.convert_quote_blocks 5 "<blockquote>Line1\nLine2</blockquote>".data ≠
      .ok "> Line1\nLine2".data := by decide

theorem C4_quote_block_rewrite_witness :
    reSubF quote_contents (fun c => '\n' :: '>' :: ' ' :: capOr c 2)
        ("A".data ++ ((["B".data].map (fun L => '\n' :: L)).flatten ++ '\n' :: "C".data)) =
      "A".data ++ ((["B".data].map (fun L => '\n' :: '>' :: ' ' :: L)).flatten ++
        '\n' :: "C".data) :=
  C4_quote_block_rewrite.1 "A".data ["B".data] "C".data (by decide) (by decide) (by decide)

/-! ### The four inline wrapping rules and the nbsp entity (claim C2) -/


/-- Shape of `em_pat` as a bare term. -/
theorem em_pat_shape : em_pat =
    .cat (.ch '<')
      (.cat (.grp 1 (.alt (litS "em") (litS "i")))
        (.cat (.ch '>')
          (.cat (.grp 2 (.star true (.cls .dotNoNL)))
            (.cat (.star false (.grp 3 (litS "&nbsp;")))
              (.cat (.ch '<')
                (.cat (.star false (.ch '\\'))
                  (.cat (plusG (.ch '/'))
                    (.cat (.grp 4 (.alt (litS "em") (litS "i")))
                      (.cat (.ch '>') .eps))))))))) := rfl

/-- The emphasis pattern on `<em>` + alphabetic content + `&nbsp;</em>`:
the lazy content group captures exactly the content, and the greedy
`(?P<nbsp>&nbsp;)*` captures the entity, which is therefore re-emitted
by the template after the closing marker. -/
theorem em_pat_matchAt {c : List Char} (hc : ∀ x ∈ c, x.isAlpha) :
    matchR em_pat ('<' :: 'e' :: 'm' :: '>' :: (c ++ "&nbsp;</em>".data)) []
      (fun rest caps => some (rest, caps)) =
      some ([], setCap 4 "em".data (setCap 3 "&nbsp;".data
        (setCap 2 c (setCap 1 "em".data [])))) := by
  have de : "em".data = ['e', 'm'] := rfl
  have di : "i".data = ['i'] := rfl
  rw [em_pat_shape]
  simp only [matchR_cat, matchR_grp, matchR_ch_cons, litS, de, di]
  rw [if_pos trivial]
  rw [alt_match_id _ _ _ _ _ (by rw [matchR_lit]; simp [List.isPrefixOf])]
  rw [matchR_lit]
  simp [List.isPrefixOf]
  refine matchR_lazyStar_skip ?_ ?_ ?_
  · intro x hx
    have hxa := hc x hx
    simp only [CharClass.mem, ne_eq, decide_eq_true_eq]
    intro h
    subst h
    simp at hxa
  · intro v caps' hv hlen
    rcases suffix_append_cases hv with hvt | ⟨u, hus, hune, rfl⟩
    · exact absurd hvt.length_le (by omega)
    · cases u with
      | nil => exact absurd rfl hune
      | cons u0 u' =>
        have hu0a := hc u0 (hus.subset (List.mem_cons_self _ _))
        have hamp : u0 ≠ '&' := fun h => by subst h; simp at hu0a
        have hlt : u0 ≠ '<' := fun h => by subst h; simp at hu0a
        rw [List.cons_append, matchR_star_greedy,
          matchR_headChar_ne (show headChar (.grp 3 (lit ['&', 'n', 'b', 's', 'p', ';'])) =
            some '&' from rfl) hamp _ _ _]
        simp only [matchR_ch_cons, if_neg hlt]
  · have hc2 : List.take (c.length + 11 -
        (['&', 'n', 'b', 's', 'p', ';', '<', '/', 'e', 'm', '>'] : List Char).length)
        (c ++ ['&', 'n', 'b', 's', 'p', ';', '<', '/', 'e', 'm', '>']) = c := by
      simp
    simp only [hc2]
    rfl

/-- Shape of `strong_pat` as a bare term. -/
theorem strong_pat_shape : strong_pat =
    .cat (.ch '<')
      (.cat (.grp 1 (.alt (litS "strong") (litS "b")))
        (.cat (.ch '>')
          (.cat (.grp 2 (.star true (.cls .dotNoNL)))
            (.cat (.star false (.grp 3 (litS "&nbsp;")))
              (.cat (.ch '<')
                (.cat (.star false (.ch '\\'))
                  (.cat (plusG (.ch '/'))
                    (.cat (.grp 4 (.alt (litS "strong") (litS "b")))
                      (.cat (.ch '>') .eps))))))))) := rfl

/-- `strong_pat` analogue of `em_pat_matchAt`. -/
theorem strong_pat_matchAt {c : List Char} (hc : ∀ x ∈ c, x.isAlpha) :
    matchR strong_pat ('<' :: 's' :: 't' :: 'r' :: 'o' :: 'n' :: 'g' :: '>' ::
        (c ++ "&nbsp;</strong>".data)) []
      (fun rest caps => some (rest, caps)) =
      some ([], setCap 4 "strong".data (setCap 3 "&nbsp;".data
        (setCap 2 c (setCap 1 "strong".data [])))) := by
  have ds : "strong".data = ['s', 't', 'r', 'o', 'n', 'g'] := rfl
  have db : "b".data = ['b'] := rfl
  rw [strong_pat_shape]
  simp only [matchR_cat, matchR_grp, matchR_ch_cons, litS, ds, db]
  rw [if_pos trivial]
  rw [alt_match_id _ _ _ _ _ (by rw [matchR_lit]; simp [List.isPrefixOf])]
  rw [matchR_lit]
  simp [List.isPrefixOf]
  refine matchR_lazyStar_skip ?_ ?_ ?_
  · intro x hx
    have hxa := hc x hx
    simp only [CharClass.mem, ne_eq, decide_eq_true_eq]
    intro h
    subst h
    simp at hxa
  · intro v caps' hv hlen
    rcases suffix_append_cases hv with hvt | ⟨u, hus, hune, rfl⟩
    · exact absurd hvt.length_le (by omega)
    · cases u with
      | nil => exact absurd rfl hune
      | cons u0 u' =>
        have hu0a := hc u0 (hus.subset (List.mem_cons_self _ _))
        have hamp : u0 ≠ '&' := fun h => by subst h; simp at hu0a
        have hlt : u0 ≠ '<' := fun h => by subst h; simp at hu0a
        rw [List.cons_append, matchR_star_greedy,
          matchR_headChar_ne (show headChar (.grp 3 (lit ['&', 'n', 'b', 's', 'p', ';'])) =
            some '&' from rfl) hamp _ _ _]
        simp only [matchR_ch_cons, if_neg hlt]
  · have hc2 : List.take (c.length + 15 -
        (['&', 'n', 'b', 's', 'p', ';', '<', '/', 's', 't', 'r', 'o', 'n', 'g', '>'] :
          List Char).length)
        (c ++ ['&', 'n', 'b', 's', 'p', ';', '<', '/', 's', 't', 'r', 'o', 'n', 'g', '>']) =
          c := by
      simp
    simp only [hc2]
    rfl

/-- Shape of `del_pat` as a bare term. -/
theorem del_pat_shape : del_pat =
    .cat (.ch '<')
      (.cat (.grp 1 (litS "del"))
        (.cat (.ch '>')
          (.cat (.grp 2 (.star true (.cls .dotNoNL)))
            (.cat (.star false (.grp 3 (litS "&nbsp;")))
              (.cat (.ch '<')
                (.cat (.star false (.ch '\\'))
                  (.cat (plusG (.ch '/'))
                    (.cat (.grp 4 (litS "del"))
                      (.cat (.ch '>') .eps))))))))) := rfl

/-- `del_pat` analogue of `em_pat_matchAt`. -/
theorem del_pat_matchAt {c : List Char} (hc : ∀ x ∈ c, x.isAlpha) :
    matchR del_pat ('<' :: 'd' :: 'e' :: 'l' :: '>' :: (c ++ "&nbsp;</del>".data)) []
      (fun rest caps => some (rest, caps)) =
      some ([], setCap 4 "del".data (setCap 3 "&nbsp;".data
        (setCap 2 c (setCap 1 "del".data [])))) := by
  have dd : "del".data = ['d', 'e', 'l'] := rfl
  rw [del_pat_shape]
  simp only [matchR_cat, matchR_grp, matchR_ch_cons, litS, dd]
  rw [if_pos trivial]
  rw [matchR_lit]
  simp [List.isPrefixOf]
  refine matchR_lazyStar_skip ?_ ?_ ?_
  · intro x hx
    have hxa := hc x hx
    simp only [CharClass.mem, ne_eq, decide_eq_true_eq]
    intro h
    subst h
    simp at hxa
  · intro v caps' hv hlen
    rcases suffix_append_cases hv with hvt | ⟨u, hus, hune, rfl⟩
    · exact absurd hvt.length_le (by omega)
    · cases u with
      | nil => exact absurd rfl hune
      | cons u0 u' =>
        have hu0a := hc u0 (hus.subset (List.mem_cons_self _ _))
        have hamp : u0 ≠ '&' := fun h => by subst h; simp at hu0a
        have hlt : u0 ≠ '<' := fun h => by subst h; simp at hu0a
        rw [List.cons_append, matchR_star_greedy,
          matchR_headChar_ne (show headChar (.grp 3 (lit ['&', 'n', 'b', 's', 'p', ';'])) =
            some '&' from rfl) hamp _ _ _]
        simp only [matchR_ch_cons, if_neg hlt]
  · have hc2 : List.take (c.length + 12 -
        (['&', 'n', 'b', 's', 'p', ';', '<', '/', 'd', 'e', 'l', '>'] : List Char).length)
        (c ++ ['&', 'n', 'b', 's', 'p', ';', '<', '/', 'd', 'e', 'l', '>']) = c := by
      simp
    simp only [hc2]
    rfl

/-- A lazy star matches zero width when its continuation succeeds. -/
theorem matchR_star_lazy_of_k {a : RE} {s : List Char} {caps : Caps} {k}
    {r : List Char × Caps} (hk : k s caps = some r) :
    matchR (.star true a) s caps k = some r := by
  rw [matchR_star_lazy, hk]

/-- A lazy star steps over one class character when the continuation
fails at the current position. -/
theorem matchR_star_lazy_skip1 {P : CharClass} {d : Char} {rest : List Char} {caps : Caps}
    {k} (hP : P.mem d = true) (hk : k (d :: rest) caps = none) :
    matchR (.star true (.cls P)) (d :: rest) caps k =
      matchR (.star true (.cls P)) rest caps k := by
  rw [matchR_star_lazy, hk, matchR_cls_cons, if_pos hP]
  simp only [List.length_cons, Nat.lt_succ_self, if_pos]

/-- Shape of `span_pat` as a bare term. -/
theorem span_pat_shape : span_pat =
    .cat (.grp 1 (.cat (litS "<span")
        (.cat (.star true (.cls .dotNoNL))
          (.cat (litS "style")
            (.cat (.star true (.cls .dotNoNL))
              (.cat (litS "underline")
                (.cat (.star true (.cls .dotNoNL))
                  (.cat (.ch '>') .eps))))))))
      (.cat (.grp 2 (.cat (.star true (.cls .dotNoNL))
          (.cat (.cls .word)
            (.cat (.star true (.cls .dotNoNL)) .eps))))
        (.cat (.grp 3 (.cat (.ch '<')
            (.cat (optG (.ch '\\'))
              (.cat (.ch '/')
                (.cat (litS "span>") .eps)))))
          .eps)) := rfl

/-- The underline pattern on `<span style=underline>` + nonempty
alphabetic content + `&nbsp;</span>`: the `text` group has no separate
nbsp group, so it captures content *and* entity together — the entity
stays inside the emitted `*...*` markers. -/
theorem span_pat_matchAt {c0 : Char} {c' : List Char} (hc0 : c0.isAlpha)
    (hc' : ∀ x ∈ c', x.isAlpha) :
    matchR span_pat ('<' :: 's' :: 'p' :: 'a' :: 'n' :: ' ' :: 's' :: 't' :: 'y' :: 'l' ::
        'e' :: '=' :: 'u' :: 'n' :: 'd' :: 'e' :: 'r' :: 'l' :: 'i' :: 'n' :: 'e' :: '>' ::
        (c0 :: (c' ++ "&nbsp;</span>".data))) []
      (fun rest caps => some (rest, caps)) =
      some ([], setCap 3 "</span>".data (setCap 2 (c0 :: (c' ++ "&nbsp;".data))
        (setCap 1 "<span style=underline>".data []))) := by
  have d1 : "<span".data = ['<', 's', 'p', 'a', 'n'] := rfl
  have d2 : "style".data = ['s', 't', 'y', 'l', 'e'] := rfl
  have d3 : "underline".data = ['u', 'n', 'd', 'e', 'r', 'l', 'i', 'n', 'e'] := rfl
  rw [span_pat_shape]
  simp [matchR_cat, matchR_grp, matchR_ch_cons, matchR_lit, litS, d1, d2, d3,
    List.isPrefixOf]
  rw [matchR_star_lazy_skip1 (by rfl) (by simp)]
  apply matchR_star_lazy_of_k
  simp only [List.cons_prefix_cons, List.nil_prefix, true_and, and_true, and_self, if_true,
    List.drop_succ_cons, List.drop_zero]
  rw [matchR_star_lazy_skip1 (by rfl) (by simp)]
  apply matchR_star_lazy_of_k
  simp only [List.cons_prefix_cons, List.nil_prefix, true_and, and_true, and_self, if_true,
    List.drop_succ_cons, List.drop_zero]
  apply matchR_star_lazy_of_k
  rw [matchR_ch_cons, if_pos rfl]
  apply matchR_star_lazy_of_k
  rw [matchR_cls_cons, if_pos (show CharClass.mem .word c0 = true by
    simp [CharClass.mem, hc0])]
  have hsplit : c' ++ (['&', 'n', 'b', 's', 'p', ';', '<', '/', 's', 'p', 'a', 'n', '>'] :
      List Char) = (c' ++ ['&', 'n', 'b', 's', 'p', ';']) ++ ['<', '/', 's', 'p', 'a', 'n', '>'] := by
    simp
  rw [hsplit]
  refine matchR_lazyStar_skip ?_ ?_ ?_
  · intro x hx
    rcases List.mem_append.mp hx with hxc | hxn
    · have hxa := hc' x hxc
      simp only [CharClass.mem, ne_eq, decide_eq_true_eq]
      intro h
      subst h
      simp at hxa
    · fin_cases hxn <;> rfl
  · intro v caps' hv hlen
    rcases suffix_append_cases hv with hvt | ⟨u, hus, hune, rfl⟩
    · exact absurd hvt.length_le (by omega)
    · cases u with
      | nil => exact absurd rfl hune
      | cons u0 u' =>
        have hu0m := hus.subset (List.mem_cons_self u0 u')
        have hlt : u0 ≠ '<' := by
          rcases List.mem_append.mp hu0m with hxc | hxn
          · have hxa := hc' u0 hxc
            intro h
            subst h
            simp at hxa
          · fin_cases hxn <;> simp
        simp only [List.cons_append, matchR_ch_cons, if_neg hlt]
  · simp [optG, matchR_alt, List.isPrefixOf, List.take_append]

/-- The emphasis rule as a whole substitution: nbsp lands after `*`. -/
theorem em_rule_sub {c : List Char} (hc : ∀ x ∈ c, x.isAlpha) :
    reSubF em_pat (fun caps => '*' :: capOr caps 2 ++ '*' :: capOr caps 3)
        ('<' :: 'e' :: 'm' :: '>' :: (c ++ "&nbsp;</em>".data)) =
      '*' :: c ++ '*' :: "&nbsp;".data := by
  have hs : search em_pat ('<' :: 'e' :: 'm' :: '>' :: (c ++ "&nbsp;</em>".data)) =
      some ([], '<' :: 'e' :: 'm' :: '>' :: (c ++ "&nbsp;</em>".data),
        setCap 4 "em".data (setCap 3 "&nbsp;".data (setCap 2 c (setCap 1 "em".data []))),
        []) := by
    rw [search_of_match (em_pat_matchAt hc)]
    simp
  rw [reSubF_some _ hs (by decide)]
  have h0 : reSubF em_pat (fun caps => '*' :: capOr caps 2 ++ '*' :: capOr caps 3) [] = [] :=
    rfl
  rw [h0]
  simp [capOr_setCap_same, capOr_setCap_ne]

/-- The strong rule as a whole substitution: nbsp lands after `**`. -/
theorem strong_rule_sub {c : List Char} (hc : ∀ x ∈ c, x.isAlpha) :
    reSubF strong_pat
        (fun caps => '*' :: '*' :: capOr caps 2 ++ '*' :: '*' :: capOr caps 3)
        ('<' :: 's' :: 't' :: 'r' :: 'o' :: 'n' :: 'g' :: '>' ::
          (c ++ "&nbsp;</strong>".data)) =
      '*' :: '*' :: c ++ '*' :: '*' :: "&nbsp;".data := by
  have hs : search strong_pat ('<' :: 's' :: 't' :: 'r' :: 'o' :: 'n' :: 'g' :: '>' ::
      (c ++ "&nbsp;</strong>".data)) =
      some ([], '<' :: 's' :: 't' :: 'r' :: 'o' :: 'n' :: 'g' :: '>' ::
        (c ++ "&nbsp;</strong>".data),
        setCap 4 "strong".data (setCap 3 "&nbsp;".data
          (setCap 2 c (setCap 1 "strong".data []))), []) := by
    rw [search_of_match (strong_pat_matchAt hc)]
    simp
  rw [reSubF_some _ hs (by decide)]
  have h0 : reSubF strong_pat
      (fun caps => '*' :: '*' :: capOr caps 2 ++ '*' :: '*' :: capOr caps 3) [] = [] := rfl
  rw [h0]
  simp [capOr_setCap_same, capOr_setCap_ne]

/-- The strikethrough rule: nbsp lands after `~~`. -/
theorem del_rule_sub {c : List Char} (hc : ∀ x ∈ c, x.isAlpha) :
    reSubF del_pat (fun caps => '~' :: '~' :: capOr caps 2 ++ '~' :: '~' :: capOr caps 3)
        ('<' :: 'd' :: 'e' :: 'l' :: '>' :: (c ++ "&nbsp;</del>".data)) =
      '~' :: '~' :: c ++ '~' :: '~' :: "&nbsp;".data := by
  have hs : search del_pat ('<' :: 'd' :: 'e' :: 'l' :: '>' :: (c ++ "&nbsp;</del>".data)) =
      some ([], '<' :: 'd' :: 'e' :: 'l' :: '>' :: (c ++ "&nbsp;</del>".data),
        setCap 4 "del".data (setCap 3 "&nbsp;".data (setCap 2 c (setCap 1 "del".data []))),
        []) := by
    rw [search_of_match (del_pat_matchAt hc)]
    simp
  rw [reSubF_some _ hs (by decide)]
  have h0 : reSubF del_pat
      (fun caps => '~' :: '~' :: capOr caps 2 ++ '~' :: '~' :: capOr caps 3) [] = [] := rfl
  rw [h0]
  simp [capOr_setCap_same, capOr_setCap_ne]

/-- The underline rule diverges: the nbsp entity stays *inside* the
emitted markers. -/
theorem span_rule_sub {c0 : Char} {c' : List Char} (hc0 : c0.isAlpha)
    (hc' : ∀ x ∈ c', x.isAlpha) :
    reSubF span_pat (fun caps => '*' :: capOr caps 2 ++ ['*'])
        ('<' :: 's' :: 'p' :: 'a' :: 'n' :: ' ' :: 's' :: 't' :: 'y' :: 'l' :: 'e' :: '=' ::
          'u' :: 'n' :: 'd' :: 'e' :: 'r' :: 'l' :: 'i' :: 'n' :: 'e' :: '>' ::
          (c0 :: (c' ++ "&nbsp;</span>".data))) =
      '*' :: (c0 :: (c' ++ "&nbsp;".data)) ++ ['*'] := by
  have hs : search span_pat ('<' :: 's' :: 'p' :: 'a' :: 'n' :: ' ' :: 's' :: 't' :: 'y' ::
      'l' :: 'e' :: '=' :: 'u' :: 'n' :: 'd' :: 'e' :: 'r' :: 'l' :: 'i' :: 'n' :: 'e' ::
      '>' :: (c0 :: (c' ++ "&nbsp;</span>".data))) =
      some ([], '<' :: 's' :: 'p' :: 'a' :: 'n' :: ' ' :: 's' :: 't' :: 'y' :: 'l' :: 'e' ::
        '=' :: 'u' :: 'n' :: 'd' :: 'e' :: 'r' :: 'l' :: 'i' :: 'n' :: 'e' :: '>' ::
        (c0 :: (c' ++ "&nbsp;</span>".data)),
        setCap 3 "</span>".data (setCap 2 (c0 :: (c' ++ "&nbsp;".data))
          (setCap 1 "<span style=underline>".data [])), []) := by
    rw [search_of_match (span_pat_matchAt hc0 hc')]
    simp
  rw [reSubF_some _ hs (by decide)]
  have h0 : reSubF span_pat (fun caps => '*' :: capOr caps 2 ++ ['*']) [] = [] := rfl
  rw [h0]
  simp [capOr_setCap_same, capOr_setCap_ne]

/-- Claim C2 (amended): of the four inline wrapping rules, only
emphasis, strong and strikethrough capture a non-breaking-space entity
before the closing tag and re-emit it after the new closing marker
(first three parts, for arbitrary alphabetic content, plus the three
end-to-end runs of `convert_simple`).  The underline (span) rule does
*not*: its pattern has no nbsp group, so the entity is captured inside
the `text` group and emitted before the closing `*` (fourth part; the
counterexample theorem shows the resulting end-to-end divergence). -/
theorem C2_inline_nbsp_reorder :
    (∀ c : List Char, (∀ x ∈ c, x.isAlpha) →
      reSubF em_pat (fun caps => '*' :: capOr caps 2 ++ '*' :: capOr caps 3)
          ('<' :: 'e' :: 'm' :: '>' :: (c ++ "&nbsp;</em>".data)) =
        '*' :: c ++ '*' :: "&nbsp;".data) ∧
    (∀ c : List Char, (∀ x ∈ c, x.isAlpha) →
      reSubF strong_pat
          (fun caps => '*' :: '*' :: capOr caps 2 ++ '*' :: '*' :: capOr caps 3)
          ('<' :: 's' :: 't' :: 'r' :: 'o' :: 'n' :: 'g' :: '>' ::
            (c ++ "&nbsp;</strong>".data)) =
        '*' :: '*' :: c ++ '*' :: '*' :: "&nbsp;".data) ∧
    (∀ c : List Char, (∀ x ∈ c, x.isAlpha) →
      reSubF del_pat
          (fun caps => '~' :: '~' :: capOr caps 2 ++ '~' :: '~' :: capOr caps 3)
          ('<' :: 'd' :: 'e' :: 'l' :: '>' :: (c ++ "&nbsp;</del>".data)) =
        '~' :: '~' :: c ++ '~' :: '~' :: "&nbsp;".data) ∧
    (∀ (c0 : Char) (c' : List Char), c0.isAlpha → (∀ x ∈ c', x.isAlpha) →
      reSubF span_pat (fun caps => '*' :: capOr caps 2 ++ ['*'])
          ('<' :: 's' :: 'p' :: 'a' :: 'n' :: ' ' :: 's' :: 't' :: 'y' :: 'l' :: 'e' ::
            '=' :: 'u' :: 'n' :: 'd' :: 'e' :: 'r' :: 'l' :: 'i' :: 'n' :: 'e' :: '>' ::
            (c0 :: (c' ++ "&nbsp;</span>".data))) =
        '*' :: (c0 :: (c' ++ "&nbsp;".data)) ++ ['*']) ∧
    Importer.convert_simple "<em>x&nbsp;</em>".data = "*x* ".data ∧
    Importer.convert_simple "<strong>x&nbsp;</strong>".data = "**x** ".data ∧
    Importer.convert_simple "<del>x&nbsp;</del>".data = "~~x~~ ".data :=
  ⟨fun c hc => em_rule_sub hc, fun c hc => strong_rule_sub hc,
   fun c hc => del_rule_sub hc, fun c0 c' hc0 hc' => span_rule_sub hc0 hc',
   by decide, by decide, by decide⟩

/-- Claim C2's counterexample: for the underline rule the entity is
*not* re-emitted after the closing marker — `<span
style=underline>x&nbsp;</span>` converts to `*x *`, not `*x* `. -/
theorem C2_span_nbsp_not_reordered :
    Importer.convert_simple "<span style=underline>x&nbsp;</span>".data = "*x *".data ∧
    Importer.convert_simple "<span style=underline>x&nbsp;</span>".data ≠ "*x* ".data := by
  decide

theorem C2_inline_nbsp_reorder_witness :
    reSubF em_pat (fun caps => '*' :: capOr caps 2 ++ '*' :: capOr caps 3)
        ('<' :: 'e' :: 'm' :: '>' :: ("ab".data ++ "&nbsp;</em>".data)) =
      '*' :: "ab".data ++ '*' :: "&nbsp;".data :=
  C2_inline_nbsp_reorder.1 "ab".data (by decide)

/-! ### The underline rule on word-free content (claim C10) -/


/-- Search fails on a three-part string `OP ++ (c ++ CL)` when the
matcher fails on every suffix of the concrete parts and the pattern
needs a head character absent from the symbolic middle. -/
theorem search_none_three_part {re : RE} {d : Char} (hd : headChar re = some d)
    {c OP CL : List Char} (hc : d ∉ c)
    (hOP : ∀ u, u <:+ OP → u ≠ [] →
      matchR re (u ++ (c ++ CL)) [] (fun rest caps => some (rest, caps)) = none)
    (hCL : ∀ t, t <:+ CL → matchR re t [] (fun rest caps => some (rest, caps)) = none) :
    search re (OP ++ (c ++ CL)) = none := by
  apply search_none_of_matchAt
  intro t ht
  rcases suffix_append_cases ht with ht1 | ⟨u, hus, hune, rfl⟩
  · rcases suffix_append_cases ht1 with ht2 | ⟨u, hus, hune, rfl⟩
    · exact hCL t ht2
    · cases u with
      | nil => exact absurd rfl hune
      | cons x u' =>
        have hx : x ≠ d := fun h => hc (h ▸ hus.subset (List.mem_cons_self _ _))
        exact matchR_headChar_ne hd hx _ _ _
  · exact hOP u hus hune

/-- The underline pattern fails at the head of
`<span style=underline>` + word-free content + `</span>`: its `text`
group requires a word character, the content has none, and every
word character inside the closing tag leaves no following `</span>`
for group 3, so backtracking exhausts every split. -/
theorem span_pat_matchAt_none {c : List Char}
    (hw : ∀ x ∈ c, CharClass.mem .word x = false) (hlt : '<' ∉ c) (hgt : '>' ∉ c) :
    matchR span_pat ('<' :: 's' :: 'p' :: 'a' :: 'n' :: ' ' :: 's' :: 't' :: 'y' :: 'l' ::
        'e' :: '=' :: 'u' :: 'n' :: 'd' :: 'e' :: 'r' :: 'l' :: 'i' :: 'n' :: 'e' :: '>' ::
        (c ++ "</span>".data)) []
      (fun rest caps => some (rest, caps)) = none := by
  have d1 : "<span".data = ['<', 's', 'p', 'a', 'n'] := rfl
  have d2 : "style".data = ['s', 't', 'y', 'l', 'e'] := rfl
  have d3 : "underline".data = ['u', 'n', 'd', 'e', 'r', 'l', 'i', 'n', 'e'] := rfl
  rw [span_pat_shape]
  simp [matchR_cat, matchR_grp, matchR_ch_cons, matchR_lit, litS, d1, d2, d3,
    List.isPrefixOf]
  apply matchR_lazyStar_none
  intro v caps' hv
  rcases suffix_append_cases
      (L := [' ', 's', 't', 'y', 'l', 'e', '=', 'u', 'n', 'd', 'e', 'r', 'l', 'i', 'n', 'e', '>'])
      (t := c ++ "</span>".data) hv with hv1 | ⟨u, hus, hune, rfl⟩
  · rcases suffix_append_cases (L := c) (t := "</span>".data) hv1 with hv2 | ⟨u, hus, hune, rfl⟩
    · have hmem : v ∈ List.tails "</span>".data := (List.mem_tails _ _).mpr hv2
      fin_cases hmem <;> rfl
    · cases u with
      | nil => exact absurd rfl hune
      | cons x u' =>
        have hx := hw x (hus.subset (List.mem_cons_self _ _))
        rw [if_neg]
        intro hp
        rw [List.cons_append, List.cons_prefix_cons] at hp
        obtain ⟨h1, _⟩ := hp
        rw [← h1] at hx
        simp [CharClass.mem] at hx
  · have hmem : u ∈ List.tails
        [' ', 's', 't', 'y', 'l', 'e', '=', 'u', 'n', 'd', 'e', 'r', 'l', 'i', 'n', 'e', '>'] :=
      (List.mem_tails _ _).mpr hus
    fin_cases hmem <;> try rfl
    · -- u = "style=underline>": the only suffix of the opening tail on
      -- which the literal "style" matches; descend into the next star.
      rw [if_pos (by simp [List.cons_append, List.cons_prefix_cons])]
      have hd5 : List.drop 5
          ((['s', 't', 'y', 'l', 'e', '=', 'u', 'n', 'd', 'e', 'r', 'l', 'i', 'n', 'e', '>'] :
            List Char) ++ (c ++ "</span>".data)) =
          ['=', 'u', 'n', 'd', 'e', 'r', 'l', 'i', 'n', 'e', '>'] ++ (c ++ "</span>".data) :=
        rfl
      rw [hd5]
      apply matchR_lazyStar_none
      intro v2 caps2 hv2
      rcases suffix_append_cases
          (L := ['=', 'u', 'n', 'd', 'e', 'r', 'l', 'i', 'n', 'e', '>'])
          (t := c ++ "</span>".data) hv2 with hw2 | ⟨u2, hus2, hune2, rfl⟩
      · rcases suffix_append_cases (L := c) (t := "</span>".data) hw2 with
          hw3 | ⟨u3, hus3, hune3, rfl⟩
        · have hmem3 : v2 ∈ List.tails "</span>".data := (List.mem_tails _ _).mpr hw3
          fin_cases hmem3 <;> rfl
        · cases u3 with
          | nil => exact absurd rfl hune3
          | cons x u3' =>
            have hx := hw x (hus3.subset (List.mem_cons_self _ _))
            rw [if_neg]
            intro hp
            rw [List.cons_append, List.cons_prefix_cons] at hp
            obtain ⟨h1, _⟩ := hp
            rw [← h1] at hx
            simp [CharClass.mem] at hx
      · have hmem2 : u2 ∈ List.tails
            ['=', 'u', 'n', 'd', 'e', 'r', 'l', 'i', 'n', 'e', '>'] :=
          (List.mem_tails _ _).mpr hus2
        fin_cases hmem2 <;> try rfl
        · -- u2 = "underline>": the literal "underline" matches; descend.
          rw [if_pos (by simp [List.cons_append, List.cons_prefix_cons])]
          have hd9 : List.drop 9
              ((['u', 'n', 'd', 'e', 'r', 'l', 'i', 'n', 'e', '>'] : List Char) ++
                (c ++ "</span>".data)) =
              ['>'] ++ (c ++ "</span>".data) := rfl
          rw [hd9]
          apply matchR_lazyStar_none
          intro v3 caps3 hv3
          rcases suffix_append_cases (L := ['>']) (t := c ++ "</span>".data) hv3 with
            hw4 | ⟨u4, hus4, hune4, rfl⟩
          · rcases suffix_append_cases (L := c) (t := "</span>".data) hw4 with
              hw5 | ⟨u5, hus5, hune5, rfl⟩
            · have hmem5 : v3 ∈ List.tails "</span>".data := (List.mem_tails _ _).mpr hw5
              fin_cases hmem5 <;> rfl
            · cases u5 with
              | nil => exact absurd rfl hune5
              | cons x u5' =>
                have hx : x ≠ '>' :=
                  fun h => hgt (h ▸ hus5.subset (List.mem_cons_self _ _))
                rw [List.cons_append, matchR_ch_cons, if_neg hx]
          · have hmem4 : u4 ∈ List.tails ['>'] := (List.mem_tails _ _).mpr hus4
            fin_cases hmem4
            · -- u4 = ['>']: the '>' is consumed and the text group must
              -- find a word character in the remaining content.
              rw [List.cons_append, matchR_ch_cons, if_pos rfl]
              apply matchR_lazyStar_none
              intro v4 caps4 hv4
              rcases suffix_append_cases (L := c) (t := "</span>".data) hv4 with
                hw6 | ⟨u6, hus6, hune6, rfl⟩
              · have hmem6 : v4 ∈ List.tails "</span>".data := (List.mem_tails _ _).mpr hw6
                fin_cases hmem6 <;> rfl
              · cases u6 with
                | nil => exact absurd rfl hune6
                | cons x u6' =>
                  have hx := hw x (hus6.subset (List.mem_cons_self _ _))
                  rw [List.cons_append, matchR_cls_cons, if_neg (by simp [hx])]
            · exact absurd rfl hune4
        · exact absurd rfl hune2
    · exact absurd rfl hune

/-- Shape of `span_close_pat` as a bare term. -/
theorem span_close_pat_shape : span_close_pat =
    .cat (.ch '<')
      (.cat (.alt (.grp 1 (.cat (.alt (.ch '\\') .eps) (.cat (.ch '/') .eps))) .eps)
        (.cat (litS "span")
          (.cat (.alt (.cls .space) .eps)
            (.cat (.star true (.cls .dotNoNL))
              (.cat (.ch '>') .eps))))) := rfl

/-- The span-removal pattern matches the bare opening tag
`<span style=underline>` (no captures: the optional slash group fails
and backtracks to its empty branch). -/
theorem span_close_matchAt_open {c : List Char} :
    matchR span_close_pat ('<' :: 's' :: 'p' :: 'a' :: 'n' :: ' ' :: 's' :: 't' :: 'y' ::
        'l' :: 'e' :: '=' :: 'u' :: 'n' :: 'd' :: 'e' :: 'r' :: 'l' :: 'i' :: 'n' :: 'e' ::
        '>' :: (c ++ "</span>".data)) []
      (fun rest caps => some (rest, caps)) =
      some (c ++ "</span>".data, []) := by
  have d4 : "span".data = ['s', 'p', 'a', 'n'] := rfl
  rw [span_close_pat_shape]
  simp [matchR_cat, matchR_grp, matchR_ch_cons, matchR_alt, matchR_lit, matchR_cls_cons,
    litS, d4, List.isPrefixOf, CharClass.mem]
  have hstar : matchR (.star true (.cls .dotNoNL))
      ('s' :: 't' :: 'y' :: 'l' :: 'e' :: '=' :: 'u' :: 'n' :: 'd' :: 'e' :: 'r' :: 'l' ::
        'i' :: 'n' :: 'e' :: '>' :: (c ++ ['<', '/', 's', 'p', 'a', 'n', '>'])) []
      (fun s' caps' => matchR (.ch '>') s' caps' fun s' caps' => some (s', caps')) =
      some (c ++ ['<', '/', 's', 'p', 'a', 'n', '>'], []) := by
    have hshape : 's' :: 't' :: 'y' :: 'l' :: 'e' :: '=' :: 'u' :: 'n' :: 'd' :: 'e' ::
        'r' :: 'l' :: 'i' :: 'n' :: 'e' :: '>' :: (c ++ ['<', '/', 's', 'p', 'a', 'n', '>']) =
        (['s', 't', 'y', 'l', 'e', '=', 'u', 'n', 'd', 'e', 'r', 'l', 'i', 'n', 'e'] :
          List Char) ++ ('>' :: (c ++ ['<', '/', 's', 'p', 'a', 'n', '>'])) := rfl
    rw [hshape]
    refine matchR_lazyStar_skip ?_ ?_ ?_
    · intro x hx
      fin_cases hx <;> rfl
    · intro v caps' hv hlen
      rcases suffix_append_cases hv with hvt | ⟨u, hus, hune, rfl⟩
      · exact absurd hvt.length_le (by omega)
      · cases u with
        | nil => exact absurd rfl hune
        | cons x u' =>
          have hx := hus.subset (List.mem_cons_self x u')
          fin_cases hx <;> rfl
    · rw [matchR_ch_cons, if_pos rfl]
  rw [hstar]

/-- Claim C10: on a styled underline span whose content has no word
characters (and none of `<`, `>`, `&`, so the content cannot interact
with any other rule), the underline rule of `convert_simple` finds no
match — the content is never wrapped in `*` markers — and the whole
pipeline emits the bare content: the span tags are deleted by the
tag-removal pass and the underline formatting is silently lost. -/
theorem C10_underline_span_without_word_chars :
    ∀ c : List Char,
      (∀ x ∈ c, CharClass.mem .word x = false ∧ x ∉ (['<', '>', '&'] : List Char)) →
      search span_pat
          ((['<', 's', 'p', 'a', 'n', ' ', 's', 't', 'y', 'l', 'e', '=', 'u', 'n', 'd',
            'e', 'r', 'l', 'i', 'n', 'e', '>'] : List Char) ++ (c ++ "</span>".data)) =
        none ∧
      Importer.convert_simple
          ((['<', 's', 'p', 'a', 'n', ' ', 's', 't', 'y', 'l', 'e', '=', 'u', 'n', 'd',
            'e', 'r', 'l', 'i', 'n', 'e', '>'] : List Char) ++ (c ++ "</span>".data)) =
        c := by
  intro c hc
  have hw : ∀ x ∈ c, CharClass.mem .word x = false := fun x hx => (hc x hx).1
  have hlt : '<' ∉ c := fun h => by simpa using (hc '<' h).2
  have hgt : '>' ∉ c := fun h => by simpa using (hc '>' h).2
  have hamp : '&' ∉ c := fun h => by simpa using (hc '&' h).2
  have h_span : search span_pat
      ((['<', 's', 'p', 'a', 'n', ' ', 's', 't', 'y', 'l', 'e', '=', 'u', 'n', 'd',
        'e', 'r', 'l', 'i', 'n', 'e', '>'] : List Char) ++ (c ++ "</span>".data)) = none := by
    refine search_none_three_part (by rfl) hlt ?_ ?_
    · intro u hu hne
      have hm := (List.mem_tails _ _).mpr hu
      fin_cases hm <;>
        first
          | exact span_pat_matchAt_none hw hlt hgt
          | exact absurd rfl hne
          | rfl
    · intro t ht
      have hm := (List.mem_tails _ _).mpr ht
      fin_cases hm <;> rfl
  refine ⟨h_span, ?_⟩
  have h_em : search (em_pat) ((['<', 's', 'p', 'a', 'n', ' ', 's', 't', 'y', 'l', 'e', '=', 'u', 'n', 'd',
        'e', 'r', 'l', 'i', 'n', 'e', '>'] : List Char) ++ (c ++ "</span>".data)) = none := by
    refine search_none_three_part (by rfl) hlt ?_ ?_
    · intro u hu hne
      have hm := (List.mem_tails _ _).mpr hu
      fin_cases hm <;> first | exact absurd rfl hne | rfl
    · intro t ht
      have hm := (List.mem_tails _ _).mpr ht
      fin_cases hm <;> rfl
  have h_strong : search (strong_pat) ((['<', 's', 'p', 'a', 'n', ' ', 's', 't', 'y', 'l', 'e', '=', 'u', 'n', 'd',
        'e', 'r', 'l', 'i', 'n', 'e', '>'] : List Char) ++ (c ++ "</span>".data)) = none := by
    refine search_none_three_part (by rfl) hlt ?_ ?_
    · intro u hu hne
      have hm := (List.mem_tails _ _).mpr hu
      fin_cases hm <;> first | exact absurd rfl hne | rfl
    · intro t ht
      have hm := (List.mem_tails _ _).mpr ht
      fin_cases hm <;> rfl
  have h_del : search (del_pat) ((['<', 's', 'p', 'a', 'n', ' ', 's', 't', 'y', 'l', 'e', '=', 'u', 'n', 'd',
        'e', 'r', 'l', 'i', 'n', 'e', '>'] : List Char) ++ (c ++ "</span>".data)) = none := by
    refine search_none_three_part (by rfl) hlt ?_ ?_
    · intro u hu hne
      have hm := (List.mem_tails _ _).mpr hu
      fin_cases hm <;> first | exact absurd rfl hne | rfl
    · intro t ht
      have hm := (List.mem_tails _ _).mpr ht
      fin_cases hm <;> rfl
  have h_h1 : search (litS "<h1>") ((['<', 's', 'p', 'a', 'n', ' ', 's', 't', 'y', 'l', 'e', '=', 'u', 'n', 'd',
        'e', 'r', 'l', 'i', 'n', 'e', '>'] : List Char) ++ (c ++ "</span>".data)) = none := by
    refine search_none_three_part (by rfl) hlt ?_ ?_
    · intro u hu hne
      have hm := (List.mem_tails _ _).mpr hu
      fin_cases hm <;> first | exact absurd rfl hne | rfl
    · intro t ht
      have hm := (List.mem_tails _ _).mpr ht
      fin_cases hm <;> rfl
  have h_h2 : search (litS "<h2>") ((['<', 's', 'p', 'a', 'n', ' ', 's', 't', 'y', 'l', 'e', '=', 'u', 'n', 'd',
        'e', 'r', 'l', 'i', 'n', 'e', '>'] : List Char) ++ (c ++ "</span>".data)) = none := by
    refine search_none_three_part (by rfl) hlt ?_ ?_
    · intro u hu hne
      have hm := (List.mem_tails _ _).mpr hu
      fin_cases hm <;> first | exact absurd rfl hne | rfl
    · intro t ht
      have hm := (List.mem_tails _ _).mpr ht
      fin_cases hm <;> rfl
  have h_h3 : search (litS "<h3>") ((['<', 's', 'p', 'a', 'n', ' ', 's', 't', 'y', 'l', 'e', '=', 'u', 'n', 'd',
        'e', 'r', 'l', 'i', 'n', 'e', '>'] : List Char) ++ (c ++ "</span>".data)) = none := by
    refine search_none_three_part (by rfl) hlt ?_ ?_
    · intro u hu hne
      have hm := (List.mem_tails _ _).mpr hu
      fin_cases hm <;> first | exact absurd rfl hne | rfl
    · intro t ht
      have hm := (List.mem_tails _ _).mpr ht
      fin_cases hm <;> rfl
  have h_pattr : search (p_attr_pat) ((['<', 's', 'p', 'a', 'n', ' ', 's', 't', 'y', 'l', 'e', '=', 'u', 'n', 'd',
        'e', 'r', 'l', 'i', 'n', 'e', '>'] : List Char) ++ (c ++ "</span>".data)) = none := by
    refine search_none_three_part (by rfl) hlt ?_ ?_
    · intro u hu hne
      have hm := (List.mem_tails _ _).mpr hu
      fin_cases hm <;> first | exact absurd rfl hne | rfl
    · intro t ht
      have hm := (List.mem_tails _ _).mpr ht
      fin_cases hm <;> rfl
  have h_p : search (p_pat) ((['<', 's', 'p', 'a', 'n', ' ', 's', 't', 'y', 'l', 'e', '=', 'u', 'n', 'd',
        'e', 'r', 'l', 'i', 'n', 'e', '>'] : List Char) ++ (c ++ "</span>".data)) = none := by
    refine search_none_three_part (by rfl) hlt ?_ ?_
    · intro u hu hne
      have hm := (List.mem_tails _ _).mpr hu
      fin_cases hm <;> first | exact absurd rfl hne | rfl
    · intro t ht
      have hm := (List.mem_tails _ _).mpr ht
      fin_cases hm <;> rfl
  have h_hclose : search (h_close_pat) ((['<', 's', 'p', 'a', 'n', ' ', 's', 't', 'y', 'l', 'e', '=', 'u', 'n', 'd',
        'e', 'r', 'l', 'i', 'n', 'e', '>'] : List Char) ++ (c ++ "</span>".data)) = none := by
    refine search_none_three_part (by rfl) hlt ?_ ?_
    · intro u hu hne
      have hm := (List.mem_tails _ _).mpr hu
      fin_cases hm <;> first | exact absurd rfl hne | rfl
    · intro t ht
      have hm := (List.mem_tails _ _).mpr ht
      fin_cases hm <;> rfl
  have h_delclose : search (del_close_pat) ((['<', 's', 'p', 'a', 'n', ' ', 's', 't', 'y', 'l', 'e', '=', 'u', 'n', 'd',
        'e', 'r', 'l', 'i', 'n', 'e', '>'] : List Char) ++ (c ++ "</span>".data)) = none := by
    refine search_none_three_part (by rfl) hlt ?_ ?_
    · intro u hu hne
      have hm := (List.mem_tails _ _).mpr hu
      fin_cases hm <;> first | exact absurd rfl hne | rfl
    · intro t ht
      have hm := (List.mem_tails _ _).mpr ht
      fin_cases hm <;> rfl
  have h_nbsp : search (litS "&nbsp;") ((['<', 's', 'p', 'a', 'n', ' ', 's', 't', 'y', 'l', 'e', '=', 'u', 'n', 'd',
        'e', 'r', 'l', 'i', 'n', 'e', '>'] : List Char) ++ (c ++ "</span>".data)) = none := by
    refine search_none_of_headChar (by rfl) (by decide) ?_
    intro hmem
    rcases List.mem_append.mp hmem with h1 | h2
    · simp at h1
    · rcases List.mem_append.mp h2 with h3 | h4
      · exact hamp h3
      · simp at h4
  have hm13 : matchR span_close_pat ((['<', 's', 'p', 'a', 'n', ' ', 's', 't', 'y', 'l', 'e', '=', 'u', 'n', 'd',
        'e', 'r', 'l', 'i', 'n', 'e', '>'] : List Char) ++ (c ++ "</span>".data)) []
      (fun rest caps => some (rest, caps)) = some (c ++ "</span>".data, []) :=
    span_close_matchAt_open
  have hs13 : search span_close_pat ((['<', 's', 'p', 'a', 'n', ' ', 's', 't', 'y', 'l', 'e', '=', 'u', 'n', 'd',
        'e', 'r', 'l', 'i', 'n', 'e', '>'] : List Char) ++ (c ++ "</span>".data)) =
      some ([], (['<', 's', 'p', 'a', 'n', ' ', 's', 't', 'y', 'l', 'e', '=', 'u', 'n', 'd',
        'e', 'r', 'l', 'i', 'n', 'e', '>'] : List Char), [], c ++ "</span>".data) := by
    rw [search_of_match hm13]
    congr 1
    rw [show (((['<', 's', 'p', 'a', 'n', ' ', 's', 't', 'y', 'l', 'e', '=', 'u', 'n', 'd',
        'e', 'r', 'l', 'i', 'n', 'e', '>'] : List Char) ++ (c ++ "</span>".data))).length - (c ++ "</span>".data).length =
        (['<', 's', 'p', 'a', 'n', ' ', 's', 't', 'y', 'l', 'e', '=', 'u', 'n', 'd',
          'e', 'r', 'l', 'i', 'n', 'e', '>'] : List Char).length from by simp,
      List.take_left]
  have hsCL : search span_close_pat "</span>".data =
      some ([], "</span>".data, [(1, ['/'])], []) := by decide
  have hs13b : search span_close_pat (c ++ "</span>".data) =
      some (c, "</span>".data, [(1, ['/'])], []) := by
    rw [search_append_of_headChar (by rfl) hlt, hsCL]
    simp
  have h13 : reSubF span_close_pat (fun _ => []) ((['<', 's', 'p', 'a', 'n', ' ', 's', 't', 'y', 'l', 'e', '=', 'u', 'n', 'd',
        'e', 'r', 'l', 'i', 'n', 'e', '>'] : List Char) ++ (c ++ "</span>".data)) = c := by
    rw [reSubF_some _ hs13 (by decide), reSubF_some _ hs13b (by decide)]
    have h0 : reSubF span_close_pat (fun _ => []) [] = [] := rfl
    rw [h0]
    simp
  rw [Importer.convert_simple]
  simp only [to_replace_simple, to_remove_simple, List.foldl]
  rw [reSubF_none _ h_em, reSubF_none _ h_strong, reSubF_none _ h_del, reSubF_none _ h_span,
    reSubF_none _ h_h1, reSubF_none _ h_h2, reSubF_none _ h_h3, reSubF_none _ h_nbsp,
    reSubF_none _ h_pattr, reSubF_none _ h_p, reSubF_none _ h_hclose,
    reSubF_none _ h_delclose, h13]

theorem C10_underline_span_without_word_chars_witness :
    (∀ x ∈ "!! !".data, CharClass.mem .word x = false ∧ x ∉ (['<', '>', '&'] : List Char)) ∧
    Importer.convert_simple
        ((['<', 's', 'p', 'a', 'n', ' ', 's', 't', 'y', 'l', 'e', '=', 'u', 'n', 'd',
          'e', 'r', 'l', 'i', 'n', 'e', '>'] : List Char) ++
          ("!! !".data ++ "</span>".data)) = "!! !".data :=
  ⟨by decide, (C10_underline_span_without_word_chars "!! !".data (by decide)).2⟩
